import Mathlib

/-!
Verification of the section-assignment engine of the ABP scheduling
application (`scheduleStudents` and its helpers in the scheduling module,
plus the manual-override validator of the schedule editor component).

The TypeScript source is embedded shallowly:

* JavaScript `Map`s become association lists (`List (κ × ν)`) looked up with
  `lookupA` (first matching key, the unique one since `Map` keys are unique)
  and mutated with `updateA`;
* section identifiers `"{subjectId}.{slot}"` with slot `1` or `2` become the
  pair type `SectionId` (the string form is in bijection with the pairs);
* JavaScript `Set`s become lists considered up to membership, with insertion
  order preserved;
* code that can throw becomes `Except String` / `Option` valued.
-/

namespace Abp

/-- Association-list lookup: value of the first entry with the given key,
mirroring `Map.get` (keys of a JS `Map` are unique). -/
def lookupA {κ ν : Type} [DecidableEq κ] : List (κ × ν) → κ → Option ν
  | [], _ => none
  | (k, v) :: rest, key => if k = key then some v else lookupA rest key

/-- Association-list in-place value update at a key, mirroring mutation of the
object returned by `Map.get`. -/
def updateA {κ ν : Type} [DecidableEq κ] (m : List (κ × ν)) (key : κ) (f : ν → ν) :
    List (κ × ν) :=
  m.map (fun p => if p.1 = key then (p.1, f p.2) else p)

/-- `[...new Set(list)]`: deduplication keeping the first occurrence of each
element, in order. -/
def dedup {α : Type} [DecidableEq α] (l : List α) : List α :=
  l.foldl (fun acc x => if x ∈ acc then acc else acc ++ [x]) []

theorem lookupA_nil {κ ν : Type} [DecidableEq κ] (key : κ) :
    lookupA ([] : List (κ × ν)) key = none := rfl

theorem lookupA_cons {κ ν : Type} [DecidableEq κ] (k : κ) (v : ν) (rest : List (κ × ν))
    (key : κ) :
    lookupA ((k, v) :: rest) key = if k = key then some v else lookupA rest key := rfl

theorem lookupA_append {κ ν : Type} [DecidableEq κ] (m₁ m₂ : List (κ × ν)) (key : κ) :
    lookupA (m₁ ++ m₂) key =
      match lookupA m₁ key with
      | some v => some v
      | none => lookupA m₂ key := by
  induction m₁ with
  | nil => simp [lookupA]
  | cons p rest ih =>
    obtain ⟨k, v⟩ := p
    by_cases h : k = key <;> simp [lookupA, h, ih]

theorem mem_of_lookupA {κ ν : Type} [DecidableEq κ] {m : List (κ × ν)} {key : κ} {v : ν}
    (h : lookupA m key = some v) : (key, v) ∈ m := by
  induction m with
  | nil => simp [lookupA] at h
  | cons p rest ih =>
    obtain ⟨k, w⟩ := p
    rw [lookupA_cons] at h
    by_cases hk : k = key
    · simp [hk] at h
      simp [hk, h]
    · simp [hk] at h
      exact List.mem_cons_of_mem _ (ih h)

theorem lookupA_updateA {κ ν : Type} [DecidableEq κ] (m : List (κ × ν)) (key k : κ)
    (f : ν → ν) :
    lookupA (updateA m key f) k =
      if key = k then (lookupA m k).map f else lookupA m k := by
  induction m with
  | nil => by_cases h : key = k <;> simp [lookupA, updateA, h]
  | cons p rest ih =>
    obtain ⟨k₀, v₀⟩ := p
    have hstep : updateA ((k₀, v₀) :: rest) key f =
        (if k₀ = key then (k₀, f v₀) else (k₀, v₀)) :: updateA rest key f := by
      simp [updateA]
    rw [hstep]
    by_cases h0 : k₀ = key
    · subst h0
      rw [if_pos rfl, lookupA_cons, lookupA_cons]
      by_cases h1 : k₀ = k
      · subst h1
        simp
      · simp [h1, ih]
    · rw [if_neg h0]
      by_cases h1 : k₀ = k
      · subst h1
        have hkk : ¬ k₀ = k₀ → False := fun hc => hc rfl
        have hne : ¬ key = k₀ := fun hc => h0 hc.symm
        rw [lookupA_cons, if_pos rfl, if_neg hne, lookupA_cons, if_pos rfl]
      · rw [lookupA_cons, if_neg h1, ih]
        by_cases h2 : key = k
        · rw [if_pos h2, if_pos h2, lookupA_cons, if_neg h1]
        · rw [if_neg h2, if_neg h2, lookupA_cons, if_neg h1]

theorem keys_updateA {κ ν : Type} [DecidableEq κ] (m : List (κ × ν)) (key : κ) (f : ν → ν) :
    (updateA m key f).map Prod.fst = m.map Prod.fst := by
  induction m with
  | nil => rfl
  | cons p rest ih =>
    by_cases h : p.1 = key <;> simp [updateA, h] at ih ⊢ <;> exact ih

theorem mem_dedup {α : Type} [DecidableEq α] (l : List α) (x : α) :
    x ∈ dedup l ↔ x ∈ l := by
  suffices h : ∀ acc : List α,
      x ∈ l.foldl (fun acc y => if y ∈ acc then acc else acc ++ [y]) acc ↔ x ∈ acc ∨ x ∈ l by
    simpa [dedup] using h []
  induction l with
  | nil => intro acc; simp
  | cons y rest ih =>
    intro acc
    by_cases hy : y ∈ acc
    · rw [List.foldl_cons, if_pos hy, ih]
      constructor
      · rintro (h | h)
        · exact Or.inl h
        · exact Or.inr (List.mem_cons_of_mem _ h)
      · rintro (h | h)
        · exact Or.inl h
        · rcases List.mem_cons.mp h with rfl | h
          · exact Or.inl hy
          · exact Or.inr h
    · rw [List.foldl_cons, if_neg hy, ih]
      constructor
      · rintro (h | h)
        · rcases List.mem_append.mp h with h | h
          · exact Or.inl h
          · simp at h
            exact Or.inr (by simp [h])
        · exact Or.inr (List.mem_cons_of_mem _ h)
      · rintro (h | h)
        · exact Or.inl (List.mem_append.mpr (Or.inl h))
        · rcases List.mem_cons.mp h with rfl | h
          · exact Or.inl (List.mem_append.mpr (Or.inr (by simp)))
          · exact Or.inr h

theorem nodup_dedup {α : Type} [DecidableEq α] (l : List α) : (dedup l).Nodup := by
  suffices h : ∀ acc : List α, acc.Nodup →
      (l.foldl (fun acc y => if y ∈ acc then acc else acc ++ [y]) acc).Nodup by
    exact h [] List.nodup_nil
  induction l with
  | nil => intro acc hacc; simpa using hacc
  | cons y rest ih =>
    intro acc hacc
    by_cases hy : y ∈ acc
    · rw [List.foldl_cons, if_pos hy]
      exact ih acc hacc
    · rw [List.foldl_cons, if_neg hy]
      refine ih _ ?_
      simpa [List.nodup_append] using ⟨hacc, fun h => hy h⟩

/-! ### Data model -/

/-- The two section slots of a subject: slot `1` (block `s1_block`) and
slot `2` (block `s2_block`).  The source identifies them by the id suffixes
`".1"` and `".2"`. -/
inductive Slot : Type
  | one
  | two
deriving DecidableEq, Repr

/-- A section identifier: the source string `"{subjectId}.{slot}"`. -/
structure SectionId where
  subjectId : Nat
  slot : Slot
deriving DecidableEq, Repr

/-- A section record (fields of the source `Section` used by the engine;
the display-only `id` and `subjectName` fields are dropped). -/
structure Section where
  subjectId : Nat
  block : Nat
  students : List String
  capacity : Nat
deriving DecidableEq, Repr

/-- One subject's entry in `ScheduleConfig`. -/
structure SubjectCfg where
  s1_block : Nat
  s2_block : Nat
  capacity : Nat
deriving DecidableEq, Repr

/-- A subject of the catalog (fields used by the engine). -/
structure Subject where
  id : Nat
  name : String
deriving DecidableEq, Repr

/-- A student's time-of-day preference. -/
inductive Pref : Type
  | manana
  | tarde
deriving DecidableEq, Repr

/-- The balancing strategy selecting the cost function. -/
inductive Strategy : Type
  | speed
  | equitable
deriving DecidableEq, Repr

/-- The section universe: `Map<string, Section>`. -/
abbrev Sections := List (SectionId × Section)

/-- The subject configuration: `ScheduleConfig` object keyed by subject id. -/
abbrev Cfgs := List (Nat × SubjectCfg)

/-- A per-student assignment: `Map<subjectId, sectionId>`, entries in subject
order. -/
abbrev Assignment := List (Nat × SectionId)

/-- The block a subject config gives to a slot. -/
def slotBlock (c : SubjectCfg) : Slot → Nat
  | .one => c.s1_block
  | .two => c.s2_block

/-! ### Feasible-combination search (`findValidAssignments`) -/

/-- The conflict check of the search: does the occupant list contain a member
of the student's conflict set? -/
def hasConflictWith (studentConflicts : List String) (occupants : List String) : Bool :=
  occupants.any (fun s => studentConflicts.contains s)

/-- The recursive `backtrack` of `findValidAssignments`: try slot 1 then
slot 2 of the current subject, skipping a slot whose block is used, whose
section is absent or full, or whose occupants conflict; at the end of the
subject list record the accumulated assignment. -/
def backtrack (sections : Sections) (scheduleConfig : Cfgs) (studentConflicts : List String) :
    List Nat → Assignment → List Nat → List Assignment
  | [], currentAssignment, _usedBlocks => [currentAssignment]
  | subjectId :: rest, currentAssignment, usedBlocks =>
    match lookupA scheduleConfig subjectId with
    | none => []
    | some config =>
      let trySlot : Nat → Slot → List Assignment := fun block slot =>
        if usedBlocks.contains block then []
        else
          match lookupA sections ⟨subjectId, slot⟩ with
          | none => []
          | some sec =>
            if sec.capacity ≤ sec.students.length then []
            else if hasConflictWith studentConflicts sec.students then []
            else
              backtrack sections scheduleConfig studentConflicts rest
                (currentAssignment ++ [(subjectId, ⟨subjectId, slot⟩)])
                (usedBlocks ++ [block])
      trySlot config.s1_block Slot.one ++ trySlot config.s2_block Slot.two

/-- `findValidAssignments`: all complete, constraint-satisfying section
assignments for one student, in backtracking order. -/
def findValidAssignments (studentSubjects : List Nat) (studentCode : String)
    (conflictMap : List (String × List String)) (sections : Sections)
    (scheduleConfig : Cfgs) : List Assignment :=
  let studentConflicts := (lookupA conflictMap studentCode).getD []
  backtrack sections scheduleConfig studentConflicts studentSubjects [] []

/-- One (subject, section) choice is admissible: the section is the subject's
own, exists, is strictly below capacity, and houses no member of the
student's conflict set. -/
def choiceOK (sections : Sections) (scheduleConfig : Cfgs) (studentConflicts : List String)
    (subjectId : Nat) (sid : SectionId) : Prop :=
  sid.subjectId = subjectId ∧
  (lookupA scheduleConfig subjectId).isSome ∧
  ∃ sec, lookupA sections sid = some sec ∧
    sec.students.length < sec.capacity ∧
    ∀ st ∈ sec.students, st ∉ studentConflicts

/-- The block of one choice of an assignment, read from the subject config. -/
def choiceBlock (scheduleConfig : Cfgs) (p : Nat × SectionId) : Nat :=
  match lookupA scheduleConfig p.1 with
  | some c => slotBlock c p.2.slot
  | none => 0

/-- A complete valid assignment in the sense of the specification: one
section per enrolled subject (in enrollment order), every choice admissible,
and no two chosen sections sharing a block. -/
def isValidAssignment (sections : Sections) (scheduleConfig : Cfgs)
    (studentConflicts : List String) (studentSubjects : List Nat) (a : Assignment) : Prop :=
  a.map Prod.fst = studentSubjects ∧
  (∀ p ∈ a, choiceOK sections scheduleConfig studentConflicts p.1 p.2) ∧
  (a.map (choiceBlock scheduleConfig)).Nodup

/-- The body of one `processSection` call of the source, written out as a
standalone function of the backtracking context. -/
def trySlot (sections : Sections) (scheduleConfig : Cfgs) (studentConflicts : List String)
    (rest : List Nat) (cur : Assignment) (used : List Nat) (subjectId : Nat)
    (block : Nat) (slot : Slot) : List Assignment :=
  if used.contains block then []
  else
    match lookupA sections ⟨subjectId, slot⟩ with
    | none => []
    | some sec =>
      if sec.capacity ≤ sec.students.length then []
      else if hasConflictWith studentConflicts sec.students then []
      else
        backtrack sections scheduleConfig studentConflicts rest
          (cur ++ [(subjectId, ⟨subjectId, slot⟩)])
          (used ++ [block])

theorem backtrack_cons (sections : Sections) (scheduleConfig : Cfgs)
    (studentConflicts : List String) (subjectId : Nat) (rest : List Nat)
    (cur : Assignment) (used : List Nat) :
    backtrack sections scheduleConfig studentConflicts (subjectId :: rest) cur used =
      match lookupA scheduleConfig subjectId with
      | none => []
      | some config =>
        trySlot sections scheduleConfig studentConflicts rest cur used subjectId
            config.s1_block Slot.one ++
          trySlot sections scheduleConfig studentConflicts rest cur used subjectId
            config.s2_block Slot.two := by
  simp only [backtrack]
  cases lookupA scheduleConfig subjectId <;> rfl

theorem trySlot_mem (sections : Sections) (scheduleConfig : Cfgs)
    (studentConflicts : List String) (rest : List Nat) (cur : Assignment)
    (used : List Nat) (subjectId : Nat) (block : Nat) (slot : Slot) (a : Assignment) :
    a ∈ trySlot sections scheduleConfig studentConflicts rest cur used subjectId block slot ↔
      block ∉ used ∧ ∃ sec, lookupA sections ⟨subjectId, slot⟩ = some sec ∧
        sec.students.length < sec.capacity ∧
        hasConflictWith studentConflicts sec.students = false ∧
        a ∈ backtrack sections scheduleConfig studentConflicts rest
          (cur ++ [(subjectId, ⟨subjectId, slot⟩)]) (used ++ [block]) := by
  unfold trySlot
  by_cases hused : used.contains block
  · rw [if_pos hused]
    have hmem : block ∈ used := by simpa using hused
    simp [hmem]
  · rw [if_neg hused]
    have hnotmem : block ∉ used := fun hc => hused (by simpa using hc)
    cases hsec : lookupA sections ⟨subjectId, slot⟩ with
    | none => simp
    | some sec =>
      simp only []
      by_cases hcap : sec.capacity ≤ sec.students.length
      · rw [if_pos hcap]
        simp only [List.not_mem_nil, false_iff]
        rintro ⟨-, sec', hsec', hcap', -⟩
        rw [Option.some.injEq] at hsec'
        subst hsec'
        omega
      · rw [if_neg hcap]
        by_cases hconf : hasConflictWith studentConflicts sec.students
        · rw [if_pos hconf]
          simp only [List.not_mem_nil, false_iff]
          rintro ⟨-, sec', hsec', -, hconf', -⟩
          rw [Option.some.injEq] at hsec'
          subst hsec'
          rw [hconf] at hconf'
          exact Bool.noConfusion hconf'
        · rw [if_neg hconf]
          constructor
          · intro h
            exact ⟨hnotmem, sec, rfl, by omega,
              Bool.not_eq_true _ ▸ Bool.of_not_eq_true hconf, h⟩
          · rintro ⟨-, sec', hsec', -, -, h⟩
            rw [Option.some.injEq] at hsec'
            subst hsec'
            exact h

theorem backtrack_mem (sections : Sections) (scheduleConfig : Cfgs)
    (studentConflicts : List String) (subs : List Nat) :
    ∀ (cur : Assignment) (used : List Nat) (a : Assignment),
      a ∈ backtrack sections scheduleConfig studentConflicts subs cur used ↔
      ∃ ext : Assignment, a = cur ++ ext ∧
        ext.map Prod.fst = subs ∧
        (∀ p ∈ ext, choiceOK sections scheduleConfig studentConflicts p.1 p.2) ∧
        (ext.map (choiceBlock scheduleConfig)).Nodup ∧
        ∀ b ∈ ext.map (choiceBlock scheduleConfig), b ∉ used := by
  induction subs with
  | nil =>
    intro cur used a
    constructor
    · intro h
      simp [backtrack] at h
      exact ⟨[], by simp [h], rfl, by simp, by simp, by simp⟩
    · rintro ⟨ext, rfl, hfst, -, -, -⟩
      have : ext = [] := by
        cases ext with
        | nil => rfl
        | cons p t => simp at hfst
      simp [backtrack, this]
  | cons s rest ih =>
    intro cur used a
    constructor
    · intro h
      rw [backtrack_cons] at h
      cases hcfg : lookupA scheduleConfig s with
      | none => rw [hcfg] at h; simp at h
      | some config =>
        rw [hcfg] at h
        simp only [List.mem_append] at h
        have branch : ∀ (block : Nat) (slot : Slot),
            a ∈ trySlot sections scheduleConfig studentConflicts rest cur used s block slot →
            block = slotBlock config slot →
            ∃ ext : Assignment, a = cur ++ ext ∧
              ext.map Prod.fst = s :: rest ∧
              (∀ p ∈ ext, choiceOK sections scheduleConfig studentConflicts p.1 p.2) ∧
              (ext.map (choiceBlock scheduleConfig)).Nodup ∧
              ∀ b ∈ ext.map (choiceBlock scheduleConfig), b ∉ used := by
          intro block slot hin hblock
          obtain ⟨hused, sec, hsec, hcap, hconf, hrec⟩ := (trySlot_mem _ _ _ _ _ _ _ _ _ _).mp hin
          obtain ⟨ext', ha, hfst, hok, hnd, hfresh⟩ := (ih _ _ a).mp hrec
          refine ⟨(s, ⟨s, slot⟩) :: ext', by simpa using ha, by simpa using hfst, ?_, ?_, ?_⟩
          · intro p hp
            rcases List.mem_cons.mp hp with rfl | hp
            · refine ⟨rfl, by simp [hcfg], sec, hsec, hcap, ?_⟩
              intro st hst hmem
              have : hasConflictWith studentConflicts sec.students = true := by
                simp [hasConflictWith]
                exact ⟨st, hst, by simpa using hmem⟩
              rw [hconf] at this
              exact Bool.noConfusion this
            · exact hok p hp
          · have hb : choiceBlock scheduleConfig (s, ⟨s, slot⟩) = block := by
              simp [choiceBlock, hcfg, hblock]
            simp only [List.map_cons, List.nodup_cons, hb]
            refine ⟨fun hmem => ?_, hnd⟩
            exact (hfresh block hmem) (by simp)
          · intro b hb hbused
            have hb' : choiceBlock scheduleConfig (s, ⟨s, slot⟩) = block := by
              simp [choiceBlock, hcfg, hblock]
            simp only [List.map_cons, hb'] at hb
            rcases List.mem_cons.mp hb with rfl | hb
            · exact hused hbused
            · exact (hfresh b hb) (by simp [hbused])
        rcases h with h | h
        · exact branch config.s1_block Slot.one h rfl
        · exact branch config.s2_block Slot.two h rfl
    · rintro ⟨ext, rfl, hfst, hok, hnd, hfresh⟩
      cases ext with
      | nil => simp at hfst
      | cons p ext' =>
        obtain ⟨psub, psid⟩ := p
        simp only [List.map_cons, List.cons.injEq] at hfst
        obtain ⟨rfl, hfstrest⟩ := hfst
        obtain ⟨hsubj, hcfgsome, sec, hsec, hcap, hconfok⟩ := hok _ (List.mem_cons_self _ _)
        obtain ⟨config, hcfg⟩ := Option.isSome_iff_exists.mp hcfgsome
        have hsid : psid = ⟨psub, psid.slot⟩ := by
          cases psid; simp at hsubj; simp [hsubj]
        rw [backtrack_cons, hcfg]
        simp only [List.mem_append]
        have hblockval : choiceBlock scheduleConfig (psub, psid) = slotBlock config psid.slot := by
          simp [choiceBlock, hcfg]
        rw [List.map_cons] at hnd hfresh
        obtain ⟨hndhead, hndtail⟩ := List.nodup_cons.mp hnd
        have hused : slotBlock config psid.slot ∉ used := by
          intro hc
          exact (hfresh _ (by simp [hblockval])) hc
        have hnoconf : hasConflictWith studentConflicts sec.students = false := by
          rw [Bool.eq_false_iff]
          intro hc
          simp [hasConflictWith] at hc
          obtain ⟨st, hst, hmem⟩ := hc
          exact (hconfok st hst) hmem
        have hrec : cur ++ (psub, psid) :: ext' ∈
            backtrack sections scheduleConfig studentConflicts rest
              (cur ++ [(psub, psid)]) (used ++ [slotBlock config psid.slot]) := by
          have harr : cur ++ (psub, psid) :: ext' = (cur ++ [(psub, psid)]) ++ ext' := by simp
          rw [harr]
          refine (ih _ _ _).mpr ⟨ext', rfl, hfstrest, ?_, hndtail, ?_⟩
          · intro q hq; exact hok q (List.mem_cons_of_mem _ hq)
          · intro b hb hbused
            rcases List.mem_append.mp hbused with hbu | hbu
            · exact (hfresh b (List.mem_cons_of_mem _ hb)) hbu
            · simp at hbu
              subst hbu
              rw [hblockval] at hndhead
              exact hndhead hb
        cases hslot : psid.slot with
        | one =>
          left
          rw [trySlot_mem]
          have husedb : config.s1_block ∉ used := by
            have hb : config.s1_block = slotBlock config psid.slot := by
              rw [hslot]
              rfl
            rw [hb]
            exact hused
          refine ⟨husedb, sec, ?_, hcap, hnoconf, ?_⟩
          · rw [show (⟨psub, Slot.one⟩ : SectionId) = psid by rw [hsid, hslot], hsec]
          · rw [show (⟨psub, Slot.one⟩ : SectionId) = psid by rw [hsid, hslot]]
            have hb1 : config.s1_block = slotBlock config psid.slot := by rw [hslot]; rfl
            rw [hb1]
            exact hrec
        | two =>
          right
          rw [trySlot_mem]
          have husedb : config.s2_block ∉ used := by
            have hb : config.s2_block = slotBlock config psid.slot := by
              rw [hslot]
              rfl
            rw [hb]
            exact hused
          refine ⟨husedb, sec, ?_, hcap, hnoconf, ?_⟩
          · rw [show (⟨psub, Slot.two⟩ : SectionId) = psid by rw [hsid, hslot], hsec]
          · rw [show (⟨psub, Slot.two⟩ : SectionId) = psid by rw [hsid, hslot]]
            have hb2 : config.s2_block = slotBlock config psid.slot := by rw [hslot]; rfl
            rw [hb2]
            exact hrec

/-- Membership characterisation of the search output. -/
theorem findValidAssignments_mem (studentSubjects : List Nat) (studentCode : String)
    (conflictMap : List (String × List String)) (sections : Sections)
    (scheduleConfig : Cfgs) (a : Assignment) :
    a ∈ findValidAssignments studentSubjects studentCode conflictMap sections scheduleConfig ↔
    isValidAssignment sections scheduleConfig ((lookupA conflictMap studentCode).getD [])
      studentSubjects a := by
  rw [findValidAssignments, isValidAssignment]
  rw [backtrack_mem]
  constructor
  · rintro ⟨ext, hext, hfst, hok, hnd, -⟩
    have ha : a = ext := by simpa using hext
    subst ha
    exact ⟨hfst, hok, hnd⟩
  · rintro ⟨hfst, hok, hnd⟩
    exact ⟨a, by simp, hfst, hok, hnd, by simp⟩


/-! ### Cost evaluator (`calculateAssignmentCost`) -/

/-- Snapshot of section sizes: `Map<sectionId, size>`. -/
abbrev Sizes := List (SectionId × Nat)

/-- The base cost of an assignment: under `equitable` the sum of squared
snapshot sizes of the chosen sections, otherwise (`speed` or default) the sum
of the raw sizes; a missing size entry counts as `0` (`|| 0`). -/
def baseCost (assignment : Assignment) (sectionSizes : Sizes) (strategy : Strategy) : Nat :=
  match strategy with
  | .equitable =>
    assignment.foldl (fun cost q => cost + ((lookupA sectionSizes q.2).getD 0) ^ 2) 0
  | .speed =>
    assignment.foldl (fun cost q => cost + (lookupA sectionSizes q.2).getD 0) 0

/-- The penalty one chosen block contributes for a given preference:
block `3` is the afternoon block, every other block counts as morning. -/
def penaltyTerm (preference : Pref) (block : Nat) : Nat :=
  let blockTime : Pref := if block = 3 then .tarde else .manana
  (if preference = .manana ∧ blockTime = .tarde then 10 else 0) +
    (if preference = .tarde ∧ blockTime = .manana then 5 else 0)

/-- The preference-penalty loop of `calculateAssignmentCost`.  The source
reads `scheduleConfig[subjectId][...]` without a guard; a missing config
entry is a runtime type error, modelled as `none`. -/
def penaltyCost? (scheduleConfig : Cfgs) (preference : Pref) : Assignment → Option Nat
  | [] => some 0
  | (subjectId, sid) :: rest =>
    match lookupA scheduleConfig subjectId with
    | none => none
    | some config =>
      let block := match sid.slot with
        | .one => config.s1_block
        | .two => config.s2_block
      (penaltyCost? scheduleConfig preference rest).map
        (fun tail => penaltyTerm preference block + tail)

/-- `calculateAssignmentCost`: base cost plus, when a preference is present,
the preference-mismatch penalty.  `none` models the runtime error of the
unguarded config lookup in the penalty loop. -/
def calculateAssignmentCost? (assignment : Assignment) (sectionSizes : Sizes)
    (preference : Option Pref) (scheduleConfig : Cfgs) (strategy : Strategy) : Option Nat :=
  let base := baseCost assignment sectionSizes strategy
  match preference with
  | none => some base
  | some p => (penaltyCost? scheduleConfig p assignment).map (fun pen => base + pen)

theorem foldl_add_eq {α : Type} (f : α → Nat) (l : List α) (n : Nat) :
    l.foldl (fun c q => c + f q) n = n + (l.map f).sum := by
  induction l generalizing n with
  | nil => simp
  | cons x xs ih => simp [ih]; omega

theorem baseCost_eq (a : Assignment) (sectionSizes : Sizes) (strategy : Strategy)
    (sz : SectionId → Nat) (hsz : ∀ q ∈ a, lookupA sectionSizes q.2 = some (sz q.2)) :
    baseCost a sectionSizes strategy =
      (a.map (fun q => match strategy with
        | .speed => sz q.2
        | .equitable => sz q.2 ^ 2)).sum := by
  cases strategy with
  | speed =>
    rw [baseCost, foldl_add_eq, Nat.zero_add]
    congr 1
    apply List.map_congr_left
    intro q hq
    rw [hsz q hq]
    rfl
  | equitable =>
    rw [baseCost, foldl_add_eq, Nat.zero_add]
    congr 1
    apply List.map_congr_left
    intro q hq
    rw [hsz q hq]
    rfl

theorem penaltyCost?_eq (scheduleConfig : Cfgs) (p : Pref) (a : Assignment)
    (hcfg : ∀ q ∈ a, (lookupA scheduleConfig q.1).isSome) :
    penaltyCost? scheduleConfig p a =
      some ((a.map (fun q => penaltyTerm p (choiceBlock scheduleConfig q))).sum) := by
  induction a with
  | nil => simp [penaltyCost?]
  | cons q rest ih =>
    obtain ⟨subjectId, sid⟩ := q
    obtain ⟨config, hc⟩ := Option.isSome_iff_exists.mp (hcfg _ (List.mem_cons_self _ _))
    rw [penaltyCost?, hc]
    rw [ih (fun q hq => hcfg q (List.mem_cons_of_mem _ hq))]
    have hb : (match sid.slot with
        | Slot.one => config.s1_block
        | Slot.two => config.s2_block) = choiceBlock scheduleConfig (subjectId, sid) := by
      rw [choiceBlock, hc]
      cases sid.slot <;> rfl
    simp [hb]

theorem penaltyTerm_manana (b : Nat) :
    penaltyTerm Pref.manana b = if b = 3 then 10 else 0 := by
  by_cases h : b = 3 <;> simp [penaltyTerm, h]

theorem penaltyTerm_tarde (b : Nat) :
    penaltyTerm Pref.tarde b = if b = 3 then 0 else 5 := by
  by_cases h : b = 3 <;> simp [penaltyTerm, h]

theorem sum_map_ite {α : Type} (q : α → Bool) (w : Nat) (l : List α) :
    (l.map (fun x => if q x then w else 0)).sum = w * l.countP q := by
  induction l with
  | nil => simp
  | cons x xs ih =>
    by_cases h : q x <;> simp [h, ih, List.countP_cons, Nat.mul_add, Nat.add_comm]


theorem sum_penalty_manana (scheduleConfig : Cfgs) (a : Assignment) :
    (a.map (fun q => penaltyTerm Pref.manana (choiceBlock scheduleConfig q))).sum =
      10 * a.countP (fun q => decide (choiceBlock scheduleConfig q = 3)) := by
  induction a with
  | nil => simp
  | cons q rest ih =>
    rw [List.map_cons, List.sum_cons, List.countP_cons, penaltyTerm_manana, ih]
    by_cases h : choiceBlock scheduleConfig q = 3 <;> simp [h] <;> omega

theorem sum_penalty_tarde (scheduleConfig : Cfgs) (a : Assignment) :
    (a.map (fun q => penaltyTerm Pref.tarde (choiceBlock scheduleConfig q))).sum =
      5 * a.countP (fun q => decide (choiceBlock scheduleConfig q ≠ 3)) := by
  induction a with
  | nil => simp
  | cons q rest ih =>
    rw [List.map_cons, List.sum_cons, List.countP_cons, penaltyTerm_tarde, ih]
    by_cases h : choiceBlock scheduleConfig q = 3 <;> simp [h] <;> omega

/-- C6: the cost of a feasible assignment is the sum over chosen sections of
the snapshot occupant count (strategy `speed`) or its square (`equitable`),
plus 10 per afternoon-block (block 3) section under a morning preference and
5 per non-afternoon-block section under an afternoon preference; no
preference contributes no penalty. -/
theorem calculateAssignmentCost_formula (a : Assignment) (sectionSizes : Sizes)
    (preference : Option Pref) (scheduleConfig : Cfgs) (strategy : Strategy)
    (sz : SectionId → Nat)
    (hcfg : ∀ q ∈ a, (lookupA scheduleConfig q.1).isSome)
    (hsz : ∀ q ∈ a, lookupA sectionSizes q.2 = some (sz q.2)) :
    calculateAssignmentCost? a sectionSizes preference scheduleConfig strategy =
      some ((a.map (fun q => match strategy with
          | .speed => sz q.2
          | .equitable => sz q.2 ^ 2)).sum +
        match preference with
        | none => 0
        | some .manana => 10 * a.countP (fun q => decide (choiceBlock scheduleConfig q = 3))
        | some .tarde => 5 * a.countP (fun q => decide (choiceBlock scheduleConfig q ≠ 3))) := by
  have hbase := baseCost_eq a sectionSizes strategy sz hsz
  cases preference with
  | none => simp [calculateAssignmentCost?, hbase]
  | some p =>
    cases p with
    | manana =>
      rw [calculateAssignmentCost?]
      rw [penaltyCost?_eq _ _ _ hcfg, sum_penalty_manana]
      simp [hbase]
    | tarde =>
      rw [calculateAssignmentCost?]
      rw [penaltyCost?_eq _ _ _ hcfg, sum_penalty_tarde]
      simp [hbase]

/-- C10: an assignment produced by the search maps only subjects with a
config entry, so the unguarded config lookup in the preference-penalty loop
never fails on a search result: the cost is always defined. -/
theorem cost_defined_on_search_results (studentSubjects : List Nat) (studentCode : String)
    (conflictMap : List (String × List String)) (sections : Sections)
    (scheduleConfig : Cfgs) (sectionSizes : Sizes) (strategy : Strategy) (p : Pref)
    (a : Assignment)
    (ha : a ∈ findValidAssignments studentSubjects studentCode conflictMap sections
      scheduleConfig) :
    (calculateAssignmentCost? a sectionSizes (some p) scheduleConfig strategy).isSome = true := by
  obtain ⟨-, hok, -⟩ := (findValidAssignments_mem _ _ _ _ _ _).mp ha
  have hcfg : ∀ q ∈ a, (lookupA scheduleConfig q.1).isSome := fun q hq => (hok q hq).2.1
  rw [calculateAssignmentCost?]
  rw [penaltyCost?_eq _ _ _ hcfg]
  rfl

/-- C1: on a duplicate-free enrolled-subject list (enrolled subjects form a
set, and the engine deduplicates before searching) the search returns exactly
the complete assignments that are block-disjoint, within capacity and
conflict-free against current occupants: sound and exhaustive. -/
theorem findValidAssignments_sound_exhaustive (studentSubjects : List Nat)
    (studentCode : String) (conflictMap : List (String × List String))
    (sections : Sections) (scheduleConfig : Cfgs) (a : Assignment)
    (hnd : studentSubjects.Nodup) :
    a ∈ findValidAssignments studentSubjects studentCode conflictMap sections scheduleConfig ↔
    isValidAssignment sections scheduleConfig ((lookupA conflictMap studentCode).getD [])
      studentSubjects a :=
  findValidAssignments_mem studentSubjects studentCode conflictMap sections scheduleConfig a

/-! ### Concrete fixtures for witnesses -/

/-- A small subject configuration: two subjects, both offering blocks 1/2. -/
def cfgsW : Cfgs := [(1, ⟨1, 2, 30⟩), (2, ⟨1, 2, 30⟩)]

/-- A configuration whose slot 2 sits in the afternoon block 3. -/
def cfgsW3 : Cfgs := [(1, ⟨1, 3, 30⟩)]

/-- The empty section universe for `cfgsW`. -/
def secsW : Sections :=
  [(⟨1, Slot.one⟩, ⟨1, 1, [], 30⟩), (⟨1, Slot.two⟩, ⟨1, 2, [], 30⟩),
   (⟨2, Slot.one⟩, ⟨2, 1, [], 30⟩), (⟨2, Slot.two⟩, ⟨2, 2, [], 30⟩)]

theorem findValidAssignments_sound_exhaustive_w :
    ([1] : List Nat).Nodup ∧
      ([(1, (⟨1, Slot.one⟩ : SectionId))] ∈
          findValidAssignments [1] "A" [] secsW cfgsW ↔
        isValidAssignment secsW cfgsW
          ((lookupA ([] : List (String × List String)) "A").getD []) [1]
          [(1, ⟨1, Slot.one⟩)]) :=
  ⟨by decide,
    findValidAssignments_sound_exhaustive [1] "A" [] secsW cfgsW
      [(1, ⟨1, Slot.one⟩)] (by decide)⟩

theorem calculateAssignmentCost_formula_w :
    calculateAssignmentCost? [(1, (⟨1, Slot.two⟩ : SectionId))] [(⟨1, Slot.two⟩, 4)]
        (some Pref.manana) cfgsW3 Strategy.speed = some 14 := by
  have h := calculateAssignmentCost_formula [(1, ⟨1, Slot.two⟩)] [(⟨1, Slot.two⟩, 4)]
    (some Pref.manana) cfgsW3 Strategy.speed (fun _ => 4) (by decide) (by decide)
  rw [h]
  decide

theorem cost_defined_on_search_results_w :
    (calculateAssignmentCost? [(1, (⟨1, Slot.one⟩ : SectionId))] []
        (some Pref.tarde) cfgsW Strategy.speed).isSome = true :=
  cost_defined_on_search_results [1] "A" [] secsW cfgsW [] Strategy.speed Pref.tarde
    [(1, ⟨1, Slot.one⟩)] (by decide)


/-! ### Failure diagnoser (`diagnoseFailure`) -/

/-- The four diagnosis classifications. -/
inductive DiagType : Type
  | CAPACITY
  | SCHEDULE
  | CONFLICT
  | UNKNOWN
deriving DecidableEq, Repr

/-- The capacity scan of `diagnoseFailure`: the first enrolled subject with a
config entry whose two sections both exist and are both at capacity. -/
def capacityCause (studentSubjects : List Nat) (scheduleConfig : Cfgs)
    (sections : Sections) : Option Nat :=
  studentSubjects.find? (fun subjectId =>
    match lookupA scheduleConfig subjectId with
    | none => false
    | some _ =>
      match lookupA sections ⟨subjectId, Slot.one⟩, lookupA sections ⟨subjectId, Slot.two⟩ with
      | some s1, some s2 =>
        decide (s1.capacity ≤ s1.students.length) && decide (s2.capacity ≤ s2.students.length)
      | _, _ => false)

/-- The conflicting occupants a potential schedule would meet: all occupants
of its chosen sections lying in the student's conflict set. -/
def blockingFor (sections : Sections) (studentConflicts : List String)
    (schedule : Assignment) : List String :=
  (schedule.map Prod.snd).foldl (fun acc sid =>
    match lookupA sections sid with
    | some sec => acc ++ sec.students.filter (fun st => studentConflicts.contains st)
    | none => acc) []

/-- The tail of `diagnoseFailure` when potential schedules exist: `CONFLICT`
when every potential schedule is blocked and the blocking sets share a common
student, `UNKNOWN` otherwise. -/
def conflictOrUnknown (sections : Sections) (studentConflicts : List String)
    (potentialSchedules : List Assignment) : DiagType :=
  let blockingBySchedule := potentialSchedules.filterMap (fun schedule =>
    let blocking := blockingFor sections studentConflicts schedule
    if blocking.isEmpty then none else some blocking)
  match blockingBySchedule with
  | [] => .UNKNOWN
  | first :: rest =>
    let inter := rest.foldl (fun acc b => acc.filter (fun x => b.contains x)) first
    if inter.isEmpty then .UNKNOWN else .CONFLICT

/-- The classification computed by `diagnoseFailure`: re-run the search with
the conflict set emptied (student code `""`, empty conflict map); if that is
empty, report `CAPACITY` when some subject has both sections full and
otherwise `SCHEDULE`; with potential schedules present, report `CONFLICT` or
`UNKNOWN` from the blocking-occupant analysis. -/
def diagnoseType (studentCode : String) (studentSubjects : List Nat)
    (conflictMap : List (String × List String)) (sections : Sections)
    (scheduleConfig : Cfgs) : DiagType :=
  let potentialSchedules := findValidAssignments studentSubjects "" [] sections scheduleConfig
  if potentialSchedules.length = 0 then
    match capacityCause studentSubjects scheduleConfig sections with
    | some _ => .CAPACITY
    | none => .SCHEDULE
  else
    conflictOrUnknown sections ((lookupA conflictMap studentCode).getD []) potentialSchedules

/-- The combination search with ALL capacity and conflict constraints
disabled, following the specification: combinations are found using only the
block-uniqueness rule over the existing sections. -/
def backtrackBlocksOnly (sections : Sections) (scheduleConfig : Cfgs) :
    List Nat → Assignment → List Nat → List Assignment
  | [], currentAssignment, _usedBlocks => [currentAssignment]
  | subjectId :: rest, currentAssignment, usedBlocks =>
    match lookupA scheduleConfig subjectId with
    | none => []
    | some config =>
      let trySlotB : Nat → Slot → List Assignment := fun block slot =>
        if usedBlocks.contains block then []
        else
          match lookupA sections ⟨subjectId, slot⟩ with
          | none => []
          | some _ =>
            backtrackBlocksOnly sections scheduleConfig rest
              (currentAssignment ++ [(subjectId, ⟨subjectId, slot⟩)])
              (usedBlocks ++ [block])
      trySlotB config.s1_block Slot.one ++ trySlotB config.s2_block Slot.two

/-- The fully relaxed search of the specification's SCHEDULE rule. -/
def findCombosBlocksOnly (studentSubjects : List Nat) (sections : Sections)
    (scheduleConfig : Cfgs) : List Assignment :=
  backtrackBlocksOnly sections scheduleConfig studentSubjects [] []

theorem conflictOrUnknown_ne_schedule (sections : Sections) (studentConflicts : List String)
    (potentialSchedules : List Assignment) :
    conflictOrUnknown sections studentConflicts potentialSchedules ≠ DiagType.SCHEDULE := by
  unfold conflictOrUnknown
  cases hbs : potentialSchedules.filterMap (fun schedule =>
      let blocking := blockingFor sections studentConflicts schedule
      if blocking.isEmpty then none else some blocking) with
  | nil => simp
  | cons first rest =>
    intro hcontra
    simp only [] at hcontra
    split at hcontra <;> exact absurd hcontra (by decide)

theorem capacityCause_none_iff (studentSubjects : List Nat) (scheduleConfig : Cfgs)
    (sections : Sections) :
    capacityCause studentSubjects scheduleConfig sections = none ↔
      ∀ subjectId ∈ studentSubjects, (lookupA scheduleConfig subjectId).isSome →
        ¬ ∃ s1 s2, lookupA sections ⟨subjectId, Slot.one⟩ = some s1 ∧
          lookupA sections ⟨subjectId, Slot.two⟩ = some s2 ∧
          s1.capacity ≤ s1.students.length ∧ s2.capacity ≤ s2.students.length := by
  rw [capacityCause, List.find?_eq_none]
  constructor
  · intro h subjectId hmem hcfg ⟨s1, s2, hs1, hs2, hc1, hc2⟩
    have hthis := h subjectId hmem
    obtain ⟨c, hc⟩ := Option.isSome_iff_exists.mp hcfg
    simp only [hc, hs1, hs2] at hthis
    simp only [Bool.and_eq_true, decide_eq_true_eq, not_and] at hthis
    exact hthis hc1 hc2
  · intro h subjectId hmem
    cases hcfg : lookupA scheduleConfig subjectId with
    | none => simp
    | some c =>
      cases hs1 : lookupA sections ⟨subjectId, Slot.one⟩ with
      | none => simp
      | some s1 =>
        cases hs2 : lookupA sections ⟨subjectId, Slot.two⟩ with
        | none => simp
        | some s2 =>
          simp only [Bool.and_eq_true, decide_eq_true_eq, not_and]
          intro hc1 hc2
          exact absurd ⟨s1, s2, hs1, hs2, hc1, hc2⟩ (h subjectId hmem (by simp [hcfg]))

/-- C2 counterexample: a student whom the code classifies `SCHEDULE`
although the fully relaxed search (capacity and conflicts both disabled)
still finds combinations.  Both subjects offer blocks 1/2; sections `1.2`
and `2.2` are full, `1.1` and `2.1` are open, so with capacity enforced the
two subjects compete for block 1 and no combination exists, yet no single
subject has both sections full. -/
def cfgsC2 : Cfgs := [(1, ⟨1, 2, 1⟩), (2, ⟨1, 2, 1⟩)]

/-- Section state for the C2 counterexample. -/
def secsC2 : Sections :=
  [(⟨1, Slot.one⟩, ⟨1, 1, [], 1⟩), (⟨1, Slot.two⟩, ⟨1, 2, ["X"], 1⟩),
   (⟨2, Slot.one⟩, ⟨2, 1, [], 1⟩), (⟨2, Slot.two⟩, ⟨2, 2, ["Y"], 1⟩)]

/-- C2 counterexample: the diagnoser reports `SCHEDULE` for a subject list
that the search with ALL capacity and conflict constraints disabled can
still schedule — refuting the claim that `SCHEDULE` implies the fully
relaxed search is empty.  The relaxed search of the code keeps the capacity
constraint and only drops conflicts. -/
theorem diagnose_schedule_claim_cex :
    diagnoseType "S" [1, 2] [] secsC2 cfgsC2 = DiagType.SCHEDULE ∧
      findCombosBlocksOnly [1, 2] secsC2 cfgsC2 ≠ [] := by decide

/-- C2 amended: the diagnoser classifies `SCHEDULE` exactly when the
re-run of the combination search with the conflict constraint disabled but
capacity still enforced yields zero combinations, and no enrolled subject
has both of its existing sections at capacity. -/
theorem diagnoseType_schedule_iff (studentCode : String) (studentSubjects : List Nat)
    (conflictMap : List (String × List String)) (sections : Sections)
    (scheduleConfig : Cfgs) :
    diagnoseType studentCode studentSubjects conflictMap sections scheduleConfig =
        DiagType.SCHEDULE ↔
      findValidAssignments studentSubjects "" [] sections scheduleConfig = [] ∧
        ∀ subjectId ∈ studentSubjects, (lookupA scheduleConfig subjectId).isSome →
          ¬ ∃ s1 s2, lookupA sections ⟨subjectId, Slot.one⟩ = some s1 ∧
            lookupA sections ⟨subjectId, Slot.two⟩ = some s2 ∧
            s1.capacity ≤ s1.students.length ∧ s2.capacity ≤ s2.students.length := by
  rw [diagnoseType]
  by_cases hpot : (findValidAssignments studentSubjects "" [] sections scheduleConfig).length = 0
  · rw [if_pos hpot]
    have hnil : findValidAssignments studentSubjects "" [] sections scheduleConfig = [] :=
      List.length_eq_zero.mp hpot
    cases hcap : capacityCause studentSubjects scheduleConfig sections with
    | some subjectId =>
      constructor
      · intro h
        simp only [] at h
        exact DiagType.noConfusion h
      · rintro ⟨-, hnone⟩
        have hn := (capacityCause_none_iff studentSubjects scheduleConfig sections).mpr hnone
        rw [hcap] at hn
        exact Option.noConfusion hn
    | none =>
      constructor
      · intro _
        exact ⟨hnil, (capacityCause_none_iff studentSubjects scheduleConfig sections).mp hcap⟩
      · intro _
        rfl
  · rw [if_neg hpot]
    constructor
    · intro h
      exact absurd h (conflictOrUnknown_ne_schedule _ _ _)
    · rintro ⟨hnil, -⟩
      exact absurd (by rw [hnil]; rfl) hpot

/-! ### The engine run (`scheduleStudents`) -/

/-- One per-student assignment record of the run result. -/
structure StudentAssignment where
  code : String
  name : String
  course : String
  sections : List SectionId
deriving DecidableEq, Repr

/-- The aggregate counters of the run result. -/
structure Stats where
  totalStudents : Nat
  totalEnrollments : Nat
  assignedStudents : Nat
  unassignedStudentsCount : Nat
  combinationsChecked : Nat
deriving DecidableEq, Repr

/-- The run result (`ScheduleResult`): the diagnostics list keeps the student
code and the classification, the display fields being presentation only. -/
structure ScheduleResult where
  sections : Sections
  unassigned : List (String × DiagType)
  studentAssignments : List (String × StudentAssignment)
  stats : Stats
deriving Repr

/-- The inputs of `scheduleStudents`. -/
structure RunInput where
  enrollments : List (String × List String)
  studentCourses : List (String × String)
  studentCodeToName : List (String × String)
  studentPreferences : List (String × Pref)
  preassignedSections : List (String × List SectionId)
  conflictPairs : List (String × String)
  subjectsConfig : List Subject
  scheduleConfig : Cfgs
  balancingStrategy : Strategy
deriving Repr

/-- The mutable state threaded through the per-student loop. -/
structure LoopState where
  sections : Sections
  unassigned : List (String × DiagType)
  combinationsChecked : Nat
deriving Repr

/-- `Set.add`: append unless already present. -/
def insertSet (v : String) (l : List String) : List String :=
  if v ∈ l then l else l ++ [v]

/-- Ensure a key of the conflict map exists (`if (!map.has(k)) map.set(k, new Set())`). -/
def ensureKey (m : List (String × List String)) (k : String) : List (String × List String) :=
  if (lookupA m k).isSome then m else m ++ [(k, [])]

/-- `map.get(k)!.add(v)`. -/
def addConflict (m : List (String × List String)) (k v : String) :
    List (String × List String) :=
  updateA m k (insertSet v)

/-- The symmetric conflict adjacency map built from the conflict pairs. -/
def buildConflictMap (pairs : List (String × String)) : List (String × List String) :=
  pairs.foldl (fun m p =>
    addConflict (addConflict (ensureKey (ensureKey m p.1) p.2) p.1 p.2) p.2 p.1) []

/-- The conflict set of one student (`conflictMap.get(code) || new Set()`). -/
def conflictsOf (m : List (String × List String)) (code : String) : List String :=
  (lookupA m code).getD []

/-- The section universe: two empty sections per configured subject. -/
def buildSections (subjectsConfig : List Subject) (scheduleConfig : Cfgs) : Sections :=
  subjectsConfig.foldl (fun m subject =>
    match lookupA scheduleConfig subject.id with
    | none => m
    | some config =>
      m ++ [(⟨subject.id, Slot.one⟩, ⟨subject.id, config.s1_block, [], config.capacity⟩),
            (⟨subject.id, Slot.two⟩, ⟨subject.id, config.s2_block, [], config.capacity⟩)]) []

/-- Append one occupant to a section. -/
def pushStudent (studentCode : String) (sec : Section) : Section :=
  { sec with students := sec.students ++ [studentCode] }

/-- Place one preassigned student into one section, failing fatally on a
full or unknown section. -/
def placeOne (sections : Sections) (studentCode : String) (sid : SectionId) :
    Except String Sections :=
  match lookupA sections sid with
  | some sec =>
    if sec.capacity ≤ sec.students.length then .error "seccion preasignada llena"
    else .ok (updateA sections sid (pushStudent studentCode))
  | none => .error "seccion preasignada inexistente"

/-- Phase 1 of preassignment: place every fixed section of every preassigned
student, in input order. -/
def placePreassigned (sections : Sections) (pre : List (String × List SectionId)) :
    Except String Sections :=
  pre.foldlM (fun secs p => p.2.foldlM (fun s sid => placeOne s p.1 sid) secs) sections

/-- Phase 2 of preassignment: scan for a mutually conflicting pair of
co-occupants among the preassigned placements. -/
def preConflictViolation (sections : Sections) (pre : List (String × List SectionId))
    (conflictMap : List (String × List String)) : Bool :=
  pre.any (fun p =>
    let studentConflicts := conflictsOf conflictMap p.1
    p.2.any (fun sid =>
      match lookupA sections sid with
      | some sec => sec.students.any (fun other =>
          if other = p.1 then false else studentConflicts.contains other)
      | none => false))

/-- Resolve a student's enrolled subject names to the deduplicated list of
subject ids, dropping unknown names. -/
def resolveSubjects (subjectsConfig : List Subject) (names : List String) : List Nat :=
  dedup (names.filterMap (fun name =>
    (subjectsConfig.find? (fun s => s.name == name)).map Subject.id))

/-- The pre-scoring snapshot of section sizes. -/
def sizesOf (sections : Sections) : Sizes :=
  sections.map (fun p => (p.1, p.2.students.length))

/-- The selection loop: keep the current best, replacing it only on a
strictly smaller cost (first minimum wins). -/
def selectBest (first : Assignment × Nat) (rest : List (Assignment × Nat)) :
    Assignment × Nat :=
  rest.foldl (fun best cand => if cand.2 < best.2 then cand else best) first

/-- Commit a chosen assignment: push the student into every chosen section. -/
def commit (sections : Sections) (studentCode : String) (a : Assignment) : Sections :=
  a.foldl (fun secs q => updateA secs q.2 (pushStudent studentCode)) sections

/-- Process one student of the main loop: resolve subjects, search, then
either record a diagnosis or commit the cheapest feasible combination. -/
def processStudent (inp : RunInput) (conflictMap : List (String × List String))
    (st : LoopState) (studentCode : String) : Except String LoopState :=
  let rawSubjects := (lookupA inp.enrollments studentCode).getD []
  let studentSubjects := resolveSubjects inp.subjectsConfig rawSubjects
  if studentSubjects.length = 0 then .ok st
  else
    let validAssignments := findValidAssignments studentSubjects studentCode conflictMap
      st.sections inp.scheduleConfig
    let combos := st.combinationsChecked + validAssignments.length
    match validAssignments with
    | [] =>
      .ok { sections := st.sections,
            unassigned := st.unassigned ++
              [(studentCode, diagnoseType studentCode studentSubjects conflictMap
                st.sections inp.scheduleConfig)],
            combinationsChecked := combos }
    | first :: rest =>
      let sectionSizes := sizesOf st.sections
      let studentPreference := lookupA inp.studentPreferences studentCode
      match calculateAssignmentCost? first sectionSizes studentPreference
          inp.scheduleConfig inp.balancingStrategy,
        rest.mapM (fun a => (calculateAssignmentCost? a sectionSizes studentPreference
          inp.scheduleConfig inp.balancingStrategy).map (fun c => (a, c))) with
      | some firstCost, some restCosts =>
        .ok { sections := commit st.sections studentCode
                (selectBest (first, firstCost) restCosts).1,
              unassigned := st.unassigned,
              combinationsChecked := combos }
      | _, _ => .error "error de tipo en el calculo de costos"

/-- The main loop over the students to schedule. -/
def runLoop (inp : RunInput) (conflictMap : List (String × List String)) (st : LoopState)
    (students : List String) : Except String LoopState :=
  students.foldlM (processStudent inp conflictMap) st

/-- The distinct occupant codes across all sections, in first-occurrence
order (the `assignedStudentsSet`). -/
def allOccupantCodes (sections : Sections) : List String :=
  dedup (sections.foldl (fun acc p => acc ++ p.2.students) [])

/-- Record one occupied section for one student. -/
def addSectionFor (m : List (String × List SectionId)) (code : String) (sid : SectionId) :
    List (String × List SectionId) :=
  if (lookupA m code).isSome then updateA m code (fun l => l ++ [sid])
  else m ++ [(code, [sid])]

/-- The map from student code to occupied section ids. -/
def studentToSections (sections : Sections) : List (String × List SectionId) :=
  sections.foldl (fun m p => p.2.students.foldl (fun m2 code => addSectionFor m2 code p.1) m) []

/-- The string form of a section id, used for the lexicographic sort of a
student's section list. -/
def sectionKey (sid : SectionId) : String :=
  toString sid.subjectId ++ (match sid.slot with | .one => ".1" | .two => ".2")

/-- Insertion into a list sorted by `sectionKey`. -/
def insertSorted (sid : SectionId) : List SectionId → List SectionId
  | [] => [sid]
  | x :: xs => if sectionKey sid ≤ sectionKey x then sid :: x :: xs else x :: insertSorted sid xs

/-- `Array.sort()` on section id strings. -/
def sortSections (l : List SectionId) : List SectionId :=
  l.foldr insertSorted []

/-- The per-student assignment records: only students with a known course
label receive an entry. -/
def buildStudentAssignments (s2s : List (String × List SectionId))
    (studentCourses : List (String × String)) (studentCodeToName : List (String × String)) :
    List (String × StudentAssignment) :=
  s2s.foldl (fun m p =>
    match lookupA studentCourses p.1 with
    | none => m
    | some course =>
      m ++ [(p.1, { code := p.1, name := (lookupA studentCodeToName p.1).getD "Desconocido",
                    course := course, sections := sortSections p.2 })]) []

/-- `scheduleStudents`: build the conflict index and the section universe,
apply the preassignments (fatally on violation), run the main loop over the
remaining enrolled students, and assemble the result. -/
def scheduleStudents (inp : RunInput) : Except String ScheduleResult :=
  let conflictMap := buildConflictMap inp.conflictPairs
  let sections0 := buildSections inp.subjectsConfig inp.scheduleConfig
  match placePreassigned sections0 inp.preassignedSections with
  | .error e => .error e
  | .ok sections1 =>
    if preConflictViolation sections1 inp.preassignedSections conflictMap then
      .error "conflicto de convivencia en los datos preasignados"
    else
      let studentList := inp.enrollments.map Prod.fst
      let preassignedStudentCodes := inp.preassignedSections.map Prod.fst
      let studentsToSchedule := studentList.filter
        (fun code => !(preassignedStudentCodes.contains code))
      match runLoop inp conflictMap ⟨sections1, [], 0⟩ studentsToSchedule with
      | .error e => .error e
      | .ok st =>
        .ok { sections := st.sections,
              unassigned := st.unassigned,
              studentAssignments :=
                buildStudentAssignments (studentToSections st.sections)
                  inp.studentCourses inp.studentCodeToName,
              stats := { totalStudents := studentList.length,
                         totalEnrollments :=
                           (inp.enrollments.map (fun p => p.2.length)).foldl (fun a b => a + b) 0,
                         assignedStudents := (allOccupantCodes st.sections).length,
                         unassignedStudentsCount := st.unassigned.length,
                         combinationsChecked := st.combinationsChecked } }

/-! ### Run invariants: infrastructure -/

/-- Keys of an association list are duplicate-free (JS `Map` keys). -/
def KeysND (sections : Sections) : Prop := (sections.map Prod.fst).Nodup

/-- No section is over capacity. -/
def capOK (sections : Sections) : Prop :=
  ∀ p ∈ sections, (Prod.snd p).students.length ≤ (Prod.snd p).capacity

theorem lookupA_eq_of_mem_nodup {κ ν : Type} [DecidableEq κ] {m : List (κ × ν)}
    (hnd : (m.map Prod.fst).Nodup) {k : κ} {v : ν} (hmem : (k, v) ∈ m) :
    lookupA m k = some v := by
  induction m with
  | nil => simp at hmem
  | cons p rest ih =>
    obtain ⟨k₀, v₀⟩ := p
    rw [List.map_cons, List.nodup_cons] at hnd
    rcases List.mem_cons.mp hmem with heq | hmem2
    · cases heq
      rw [lookupA_cons, if_pos rfl]
    · rw [lookupA_cons]
      by_cases hk : k₀ = k
      · subst hk
        exact absurd (by simpa using List.mem_map_of_mem Prod.fst hmem2) hnd.1
      · rw [if_neg hk]
        exact ih hnd.2 hmem2

theorem mem_iff_lookupA {κ ν : Type} [DecidableEq κ] {m : List (κ × ν)}
    (hnd : (m.map Prod.fst).Nodup) (k : κ) (v : ν) :
    (k, v) ∈ m ↔ lookupA m k = some v :=
  ⟨lookupA_eq_of_mem_nodup hnd, mem_of_lookupA⟩

theorem commit_cons (sections : Sections) (studentCode : String) (q : Nat × SectionId)
    (rest : Assignment) :
    commit sections studentCode (q :: rest) =
      commit (updateA sections q.2 (pushStudent studentCode)) studentCode rest := rfl

theorem keys_commit (studentCode : String) (a : Assignment) :
    ∀ sections : Sections,
      (commit sections studentCode a).map Prod.fst = sections.map Prod.fst := by
  induction a with
  | nil => intro sections; rfl
  | cons q rest ih =>
    intro sections
    rw [commit_cons, ih, keys_updateA]

theorem lookupA_commit (studentCode : String) (sid : SectionId) (a : Assignment) :
    ∀ sections : Sections, (a.map Prod.snd).Nodup →
    lookupA (commit sections studentCode a) sid =
      if sid ∈ a.map Prod.snd then (lookupA sections sid).map (pushStudent studentCode)
      else lookupA sections sid := by
  induction a with
  | nil => intro sections _; simp [commit]
  | cons q rest ih =>
    intro sections hnd
    rw [List.map_cons, List.nodup_cons] at hnd
    rw [commit_cons, ih _ hnd.2]
    by_cases hq : sid = q.2
    · subst hq
      have hnot : q.2 ∉ rest.map Prod.snd := hnd.1
      rw [if_neg hnot, if_pos (by simp), lookupA_updateA, if_pos rfl]
    · by_cases hr : sid ∈ rest.map Prod.snd
      · rw [if_pos hr, if_pos (by simp [hr]), lookupA_updateA, if_neg (fun hc2 => hq hc2.symm)]
      · rw [if_neg hr, if_neg (by simp [hr, hq]), lookupA_updateA,
          if_neg (fun hc2 => hq hc2.symm)]

theorem foldl_build_mem {α : Type} (P : α → Prop) (step : List α → Subject → List α)
    (hstep : ∀ acc subject, (∀ p ∈ acc, P p) → ∀ p ∈ step acc subject, P p)
    (l : List Subject) :
    ∀ acc, (∀ p ∈ acc, P p) → ∀ p ∈ l.foldl step acc, P p := by
  induction l with
  | nil => intro acc hacc; simpa using hacc
  | cons x xs ih =>
    intro acc hacc
    exact ih (step acc x) (hstep acc x hacc)

/-- Every section the builder produces: owned by its subject, on its config
block, with the config capacity and no occupants. -/
theorem buildSections_mem (subjectsConfig : List Subject) (scheduleConfig : Cfgs) :
    ∀ p ∈ buildSections subjectsConfig scheduleConfig,
      (Prod.snd p).subjectId = (Prod.fst p).subjectId ∧
      (Prod.snd p).students = [] ∧
      ∃ c, lookupA scheduleConfig (Prod.fst p).subjectId = some c ∧
        (Prod.snd p).block = slotBlock c (Prod.fst p).slot ∧
        (Prod.snd p).capacity = c.capacity := by
  rw [buildSections]
  refine foldl_build_mem _ _ ?_ subjectsConfig [] (by simp)
  intro acc subject hacc p hp
  cases hcfg : lookupA scheduleConfig subject.id with
  | none =>
    rw [hcfg] at hp
    exact hacc p hp
  | some config =>
    rw [hcfg] at hp
    rcases List.mem_append.mp hp with hp | hp
    · exact hacc p hp
    · rcases List.mem_cons.mp hp with rfl | hp
      · exact ⟨rfl, rfl, config, by simpa using hcfg, rfl, rfl⟩
      · rcases List.mem_cons.mp hp with rfl | hp
        · exact ⟨rfl, rfl, config, by simpa using hcfg, rfl, rfl⟩
        · simp at hp

theorem capOK_buildSections (subjectsConfig : List Subject) (scheduleConfig : Cfgs) :
    capOK (buildSections subjectsConfig scheduleConfig) := by
  intro p hp
  obtain ⟨-, hemp, -⟩ := buildSections_mem subjectsConfig scheduleConfig p hp
  rw [hemp]
  simp

theorem placeOne_ok_inv (sections : Sections) (studentCode : String) (sid : SectionId)
    (sections2 : Sections) (h : placeOne sections studentCode sid = .ok sections2) :
    ∃ sec, lookupA sections sid = some sec ∧ sec.students.length < sec.capacity ∧
      sections2 = updateA sections sid (pushStudent studentCode) := by
  rw [placeOne] at h
  cases hsec : lookupA sections sid with
  | none =>
    rw [hsec] at h
    exact Except.noConfusion h
  | some sec =>
    rw [hsec] at h
    simp only [] at h
    by_cases hcap : sec.capacity ≤ sec.students.length
    · rw [if_pos hcap] at h
      exact Except.noConfusion h
    · rw [if_neg hcap] at h
      have h2 : sections2 = updateA sections sid (pushStudent studentCode) := by
        cases h
        rfl
      exact ⟨sec, rfl, by omega, h2⟩

theorem capOK_updateA_push (sections : Sections) (studentCode : String) (sid : SectionId)
    (sec : Section) (hk : KeysND sections) (hcap : capOK sections)
    (hsec : lookupA sections sid = some sec) (hlt : sec.students.length < sec.capacity) :
    capOK (updateA sections sid (pushStudent studentCode)) := by
  intro p hp
  obtain ⟨q, hq, heq⟩ := List.mem_map.mp hp
  by_cases hkey : q.1 = sid
  · have hlq : lookupA sections sid = some q.2 := by
      rw [← hkey]
      exact lookupA_eq_of_mem_nodup hk (by simpa using hq)
    have hqsec : q.2 = sec := by
      rw [hlq] at hsec
      exact Option.some.injEq .. ▸ hsec
    rw [if_pos hkey] at heq
    rw [← heq]
    simp only [pushStudent, hqsec]
    simp
    omega
  · rw [if_neg hkey] at heq
    rw [← heq]
    exact hcap q hq

theorem foldlM_except_inv {α σ : Type} (P : σ → Prop) (f : σ → α → Except String σ)
    (hf : ∀ s x s2, P s → f s x = .ok s2 → P s2) :
    ∀ (l : List α) (s s2 : σ), P s → l.foldlM f s = .ok s2 → P s2 := by
  intro l
  induction l with
  | nil =>
    intro s s2 hP h
    rw [List.foldlM_nil] at h
    cases h
    exact hP
  | cons x xs ih =>
    intro s s2 hP h
    rw [List.foldlM_cons] at h
    cases hfx : f s x with
    | error e =>
      rw [hfx] at h
      exact Except.noConfusion h
    | ok s1 =>
      rw [hfx] at h
      exact ih s1 s2 (hf s x s1 hP hfx) h

theorem keysND_capOK_placeOne (sections : Sections) (studentCode : String) (sid : SectionId)
    (sections2 : Sections) (hk : KeysND sections) (hcap : capOK sections)
    (h : placeOne sections studentCode sid = .ok sections2) :
    KeysND sections2 ∧ capOK sections2 := by
  obtain ⟨sec, hsec, hlt, rfl⟩ := placeOne_ok_inv sections studentCode sid sections2 h
  constructor
  · rw [KeysND, keys_updateA]
    exact hk
  · exact capOK_updateA_push sections studentCode sid sec hk hcap hsec hlt

theorem keysND_capOK_placePreassigned (sections : Sections)
    (pre : List (String × List SectionId)) (sections2 : Sections)
    (hk : KeysND sections) (hcap : capOK sections)
    (h : placePreassigned sections pre = .ok sections2) :
    KeysND sections2 ∧ capOK sections2 := by
  refine foldlM_except_inv (fun s => KeysND s ∧ capOK s) _ ?_ pre sections sections2
    ⟨hk, hcap⟩ h
  intro s p s2 hP hstep
  refine foldlM_except_inv (fun s => KeysND s ∧ capOK s) _ ?_ p.2 s s2 hP hstep
  intro s3 sid s4 hP3 hstep3
  exact keysND_capOK_placeOne s3 p.1 sid s4 hP3.1 hP3.2 hstep3

theorem selectBest_cons (first c : Assignment × Nat) (cs : List (Assignment × Nat)) :
    selectBest first (c :: cs) = selectBest (if c.2 < first.2 then c else first) cs := rfl

theorem selectBest_mem : ∀ (rest : List (Assignment × Nat)) (first : Assignment × Nat),
    selectBest first rest ∈ first :: rest := by
  intro rest
  induction rest with
  | nil => intro first; simp [selectBest]
  | cons c cs ih =>
    intro first
    by_cases h : c.2 < first.2
    · rw [selectBest_cons, if_pos h]
      have hmem := ih c
      rcases List.mem_cons.mp hmem with heq | hmem2
      · rw [heq]
        exact List.mem_cons_of_mem _ (List.mem_cons_self _ _)
      · exact List.mem_cons_of_mem _ (List.mem_cons_of_mem _ hmem2)
    · rw [selectBest_cons, if_neg h]
      have hmem := ih first
      rcases List.mem_cons.mp hmem with heq | hmem2
      · rw [heq]
        exact List.mem_cons_self _ _
      · exact List.mem_cons_of_mem _ (List.mem_cons_of_mem _ hmem2)

theorem mapM_cost_inv (g : Assignment → Option Nat) :
    ∀ (l : List Assignment) (res : List (Assignment × Nat)),
      l.mapM (fun a => (g a).map (fun c => (a, c))) = some res →
      res.map Prod.fst = l ∧ ∀ q ∈ res, g q.1 = some q.2 := by
  intro l
  induction l with
  | nil =>
    intro res h
    rw [List.mapM_nil] at h
    cases h
    simp
  | cons a as ih =>
    intro res h
    rw [List.mapM_cons] at h
    cases hga : g a with
    | none =>
      rw [hga] at h
      exact Option.noConfusion h
    | some c =>
      rw [hga] at h
      cases hrest : as.mapM (fun a => (g a).map (fun c => (a, c))) with
      | none =>
        rw [hrest] at h
        exact Option.noConfusion h
      | some rs =>
        rw [hrest] at h
        cases h
        obtain ⟨hfst, hall⟩ := ih rs hrest
        constructor
        · simp [hfst]
        · intro q hq
          rcases List.mem_cons.mp hq with rfl | hq2
          · exact hga
          · exact hall q hq2

theorem sids_nodup_of_valid (sections : Sections) (scheduleConfig : Cfgs)
    (studentConflicts : List String) (subs : List Nat) (a : Assignment)
    (hv : isValidAssignment sections scheduleConfig studentConflicts subs a)
    (hnd : subs.Nodup) : (a.map Prod.snd).Nodup := by
  obtain ⟨hfst, hok, -⟩ := hv
  have hmm : a.map Prod.fst = (a.map Prod.snd).map SectionId.subjectId := by
    rw [List.map_map]
    apply List.map_congr_left
    intro p hp
    exact ((hok p hp).1).symm
  rw [hfst] at hmm
  exact List.Nodup.of_map _ (hmm ▸ hnd)

theorem resolveSubjects_nodup (subjectsConfig : List Subject) (names : List String) :
    (resolveSubjects subjectsConfig names).Nodup := by
  rw [resolveSubjects]
  exact nodup_dedup _

theorem capOK_commit_of_valid (sections : Sections) (studentCode : String) (a : Assignment)
    (hk : KeysND sections) (hcap : capOK sections) (hnd : (a.map Prod.snd).Nodup)
    (hok : ∀ sid ∈ a.map Prod.snd, ∃ sec, lookupA sections sid = some sec ∧
      sec.students.length < sec.capacity) :
    capOK (commit sections studentCode a) := by
  intro p hp
  have hkc : KeysND (commit sections studentCode a) := by
    rw [KeysND, keys_commit]
    exact hk
  have hl : lookupA (commit sections studentCode a) p.1 = some p.2 :=
    lookupA_eq_of_mem_nodup hkc (by simpa using hp)
  rw [lookupA_commit studentCode p.1 a sections hnd] at hl
  by_cases hmem : p.1 ∈ a.map Prod.snd
  · rw [if_pos hmem] at hl
    obtain ⟨sec, hsec, hlt⟩ := hok p.1 hmem
    rw [hsec] at hl
    injection hl with hl2
    rw [← hl2]
    simp [pushStudent]
    omega
  · rw [if_neg hmem] at hl
    exact hcap _ (mem_of_lookupA hl)

theorem processStudent_ok_cases (inp : RunInput) (conflictMap : List (String × List String))
    (st : LoopState) (studentCode : String) (st2 : LoopState)
    (h : processStudent inp conflictMap st studentCode = .ok st2) :
    st2.sections = st.sections ∨
    ∃ first rest firstCost restCosts,
      findValidAssignments
          (resolveSubjects inp.subjectsConfig ((lookupA inp.enrollments studentCode).getD []))
          studentCode conflictMap st.sections inp.scheduleConfig = first :: rest ∧
      calculateAssignmentCost? first (sizesOf st.sections)
          (lookupA inp.studentPreferences studentCode) inp.scheduleConfig
          inp.balancingStrategy = some firstCost ∧
      rest.mapM (fun a => (calculateAssignmentCost? a (sizesOf st.sections)
          (lookupA inp.studentPreferences studentCode) inp.scheduleConfig
          inp.balancingStrategy).map (fun c => (a, c))) = some restCosts ∧
      st2.sections = commit st.sections studentCode
        (selectBest (first, firstCost) restCosts).1 := by
  rw [processStudent] at h
  simp only [] at h
  by_cases hlen :
      (resolveSubjects inp.subjectsConfig ((lookupA inp.enrollments studentCode).getD [])).length
        = 0
  · rw [if_pos hlen] at h
    cases h
    exact Or.inl rfl
  · rw [if_neg hlen] at h
    cases hva : findValidAssignments
        (resolveSubjects inp.subjectsConfig ((lookupA inp.enrollments studentCode).getD []))
        studentCode conflictMap st.sections inp.scheduleConfig with
    | nil =>
      rw [hva] at h
      simp only [] at h
      cases h
      exact Or.inl rfl
    | cons first rest =>
      rw [hva] at h
      simp only [] at h
      cases hc1 : calculateAssignmentCost? first (sizesOf st.sections)
          (lookupA inp.studentPreferences studentCode) inp.scheduleConfig
          inp.balancingStrategy with
      | none =>
        rw [hc1] at h
        simp only [] at h
        exact Except.noConfusion h
      | some firstCost =>
        rw [hc1] at h
        cases hc2 : rest.mapM (fun a => (calculateAssignmentCost? a (sizesOf st.sections)
            (lookupA inp.studentPreferences studentCode) inp.scheduleConfig
            inp.balancingStrategy).map (fun c => (a, c))) with
        | none =>
          rw [hc2] at h
          simp only [] at h
          exact Except.noConfusion h
        | some restCosts =>
          rw [hc2] at h
          simp only [] at h
          cases h
          exact Or.inr ⟨first, rest, firstCost, restCosts, rfl, hc1, hc2, rfl⟩

theorem keysND_capOK_processStudent (inp : RunInput)
    (conflictMap : List (String × List String)) (st : LoopState) (studentCode : String)
    (st2 : LoopState) (hk : KeysND st.sections) (hcap : capOK st.sections)
    (h : processStudent inp conflictMap st studentCode = .ok st2) :
    KeysND st2.sections ∧ capOK st2.sections := by
  rcases processStudent_ok_cases inp conflictMap st studentCode st2 h with
    heq | ⟨first, rest, firstCost, restCosts, hva, hc1, hc2, heq⟩
  · rw [heq]
    exact ⟨hk, hcap⟩
  · rw [heq]
    refine ⟨by rw [KeysND, keys_commit]; exact hk, ?_⟩
    obtain ⟨hfstl, -⟩ := mapM_cost_inv _ rest restCosts hc2
    have hbestmem : (selectBest (first, firstCost) restCosts).1 ∈ first :: rest := by
      rcases List.mem_cons.mp (selectBest_mem restCosts (first, firstCost)) with heq2 | hmem2
      · rw [heq2]
        exact List.mem_cons_self _ _
      · rw [← hfstl]
        exact List.mem_cons_of_mem _ (List.mem_map_of_mem Prod.fst hmem2)
    rw [← hva] at hbestmem
    have hval := (findValidAssignments_mem _ _ _ _ _ _).mp hbestmem
    have hsnd := sids_nodup_of_valid _ _ _ _ _ hval (resolveSubjects_nodup _ _)
    refine capOK_commit_of_valid st.sections studentCode _ hk hcap hsnd ?_
    intro sid hsid
    obtain ⟨q, hq, hqeq⟩ := List.mem_map.mp hsid
    obtain ⟨-, hok, -⟩ := hval
    obtain ⟨-, -, sec, hsec, hlt, -⟩ := hok q hq
    rw [hqeq] at hsec
    exact ⟨sec, hsec, hlt⟩

theorem keysND_capOK_runLoop (inp : RunInput) (conflictMap : List (String × List String))
    (st : LoopState) (students : List String) (st2 : LoopState)
    (hk : KeysND st.sections) (hcap : capOK st.sections)
    (h : runLoop inp conflictMap st students = .ok st2) :
    KeysND st2.sections ∧ capOK st2.sections := by
  refine foldlM_except_inv (fun s => KeysND s.sections ∧ capOK s.sections) _ ?_ students st st2
    ⟨hk, hcap⟩ h
  intro s x s2 hP hstep
  exact keysND_capOK_processStudent inp conflictMap s x s2 hP.1 hP.2 hstep

theorem buildSections_keysND (subjectsConfig : List Subject) (scheduleConfig : Cfgs)
    (hnd : (subjectsConfig.map Subject.id).Nodup) :
    KeysND (buildSections subjectsConfig scheduleConfig) := by
  rw [KeysND, buildSections]
  suffices hgen : ∀ (l : List Subject) (acc : Sections),
      (acc.map Prod.fst).Nodup →
      (l.map Subject.id).Nodup →
      (∀ s ∈ l, ∀ p ∈ acc, (Prod.fst p).subjectId ≠ s.id) →
      ((l.foldl (fun m subject =>
        match lookupA scheduleConfig subject.id with
        | none => m
        | some config =>
          m ++ [(⟨subject.id, Slot.one⟩, ⟨subject.id, config.s1_block, [], config.capacity⟩),
                (⟨subject.id, Slot.two⟩,
                  ⟨subject.id, config.s2_block, [], config.capacity⟩)]) acc).map
          Prod.fst).Nodup by
    exact hgen subjectsConfig [] (by simp) hnd (by simp)
  intro l
  induction l with
  | nil =>
    intro acc hacc _ _
    simpa using hacc
  | cons x xs ih =>
    intro acc hacc hnd2 hdisj
    rw [List.map_cons, List.nodup_cons] at hnd2
    rw [List.foldl_cons]
    cases hcfg : lookupA scheduleConfig x.id with
    | none =>
      refine ih acc hacc hnd2.2 ?_
      intro s hs p hp
      exact hdisj s (List.mem_cons_of_mem _ hs) p hp
    | some config =>
      refine ih _ ?_ hnd2.2 ?_
      · rw [List.map_append, List.nodup_append]
        refine ⟨hacc, by simp, ?_⟩
        intro k hk1 hk2
        obtain ⟨p, hp, hpeq⟩ := List.mem_map.mp hk1
        simp at hk2
        rcases hk2 with hk2 | hk2 <;>
          exact absurd (by rw [hpeq, hk2]) (hdisj x (List.mem_cons_self _ _) p hp)
      · intro s hs p hp
        rcases List.mem_append.mp hp with hp | hp
        · exact hdisj s (List.mem_cons_of_mem _ hs) p hp
        · have hxids : x.id ≠ s.id := by
            intro hc
            exact hnd2.1 (hc ▸ List.mem_map_of_mem Subject.id hs)
          simp at hp
          rcases hp with hp | hp <;> rw [hp] <;> exact hxids

theorem scheduleStudents_ok_inv (inp : RunInput) (r : ScheduleResult)
    (h : scheduleStudents inp = .ok r) :
    ∃ sections1 st,
      placePreassigned (buildSections inp.subjectsConfig inp.scheduleConfig)
        inp.preassignedSections = .ok sections1 ∧
      preConflictViolation sections1 inp.preassignedSections
        (buildConflictMap inp.conflictPairs) = false ∧
      runLoop inp (buildConflictMap inp.conflictPairs) ⟨sections1, [], 0⟩
        ((inp.enrollments.map Prod.fst).filter
          (fun code => !((inp.preassignedSections.map Prod.fst).contains code))) = .ok st ∧
      r.sections = st.sections ∧
      r.unassigned = st.unassigned ∧
      r.studentAssignments = buildStudentAssignments (studentToSections st.sections)
        inp.studentCourses inp.studentCodeToName ∧
      r.stats.assignedStudents = (allOccupantCodes st.sections).length := by
  rw [scheduleStudents] at h
  simp only [] at h
  cases hp : placePreassigned (buildSections inp.subjectsConfig inp.scheduleConfig)
      inp.preassignedSections with
  | error e =>
    rw [hp] at h
    exact Except.noConfusion h
  | ok sections1 =>
    rw [hp] at h
    simp only [] at h
    by_cases hv : preConflictViolation sections1 inp.preassignedSections
        (buildConflictMap inp.conflictPairs) = true
    · rw [if_pos hv] at h
      exact Except.noConfusion h
    · rw [if_neg hv] at h
      cases hrl : runLoop inp (buildConflictMap inp.conflictPairs) ⟨sections1, [], 0⟩
          ((inp.enrollments.map Prod.fst).filter
            (fun code => !((inp.preassignedSections.map Prod.fst).contains code))) with
      | error e =>
        rw [hrl] at h
        exact Except.noConfusion h
      | ok st =>
        rw [hrl] at h
        simp only [] at h
        cases h
        exact ⟨sections1, st, rfl, Bool.eq_false_iff.mpr hv, hrl, rfl, rfl, rfl, rfl⟩

/-- C4: the occupant count of a section never exceeds its capacity: it holds
of the freshly built universe, it is preserved by every mutation a run
performs (each preassignment placement and each student commit of the main
loop), and hence it holds of the sections of every completed run. -/
theorem occupancy_never_exceeds_capacity :
    (∀ (subjectsConfig : List Subject) (scheduleConfig : Cfgs),
      capOK (buildSections subjectsConfig scheduleConfig)) ∧
    (∀ (sections : Sections) (studentCode : String) (sid : SectionId) (sections2 : Sections),
      KeysND sections → capOK sections →
      placeOne sections studentCode sid = .ok sections2 → capOK sections2) ∧
    (∀ (inp : RunInput) (conflictMap : List (String × List String)) (st : LoopState)
      (studentCode : String) (st2 : LoopState),
      KeysND st.sections → capOK st.sections →
      processStudent inp conflictMap st studentCode = .ok st2 → capOK st2.sections) ∧
    (∀ (inp : RunInput) (r : ScheduleResult),
      ((inp.subjectsConfig).map Subject.id).Nodup →
      scheduleStudents inp = .ok r → capOK r.sections) := by
  refine ⟨capOK_buildSections, ?_, ?_, ?_⟩
  · intro sections studentCode sid sections2 hk hcap h
    exact (keysND_capOK_placeOne sections studentCode sid sections2 hk hcap h).2
  · intro inp conflictMap st studentCode st2 hk hcap h
    exact (keysND_capOK_processStudent inp conflictMap st studentCode st2 hk hcap h).2
  · intro inp r hnd h
    obtain ⟨sections1, st, hp, -, hrl, hsec, -⟩ := scheduleStudents_ok_inv inp r h
    have h0k : KeysND (buildSections inp.subjectsConfig inp.scheduleConfig) :=
      buildSections_keysND inp.subjectsConfig inp.scheduleConfig hnd
    have h0c : capOK (buildSections inp.subjectsConfig inp.scheduleConfig) :=
      capOK_buildSections inp.subjectsConfig inp.scheduleConfig
    obtain ⟨h1k, h1c⟩ := keysND_capOK_placePreassigned _ _ _ h0k h0c hp
    obtain ⟨-, h2c⟩ := keysND_capOK_runLoop inp _ ⟨sections1, [], 0⟩ _ st h1k h1c hrl
    rw [hsec]
    exact h2c

/-- Two tiny concrete states for the C4 witness. -/
def secsCap1 : Sections := [(⟨1, Slot.one⟩, ⟨1, 1, [], 2⟩)]

/-- The state after placing student `A` into the single section. -/
def secsCap2 : Sections := [(⟨1, Slot.one⟩, ⟨1, 1, ["A"], 2⟩)]

theorem occupancy_never_exceeds_capacity_w :
    KeysND secsCap1 ∧ capOK secsCap1 ∧
      placeOne secsCap1 "A" ⟨1, Slot.one⟩ = .ok secsCap2 ∧ capOK secsCap2 :=
  ⟨by unfold KeysND; decide, by unfold capOK; decide, by rfl,
    occupancy_never_exceeds_capacity.2.1 secsCap1 "A" ⟨1, Slot.one⟩ secsCap2
      (by unfold KeysND; decide) (by unfold capOK; decide) (by rfl)⟩

/-! ### Conflict-pair invariant (C5) -/

theorem mem_insertSet (v x : String) (l : List String) :
    x ∈ insertSet v l ↔ x = v ∨ x ∈ l := by
  rw [insertSet]
  by_cases h : v ∈ l
  · rw [if_pos h]
    constructor
    · exact Or.inr
    · rintro (rfl | hx)
      · exact h
      · exact hx
  · rw [if_neg h]
    simp [or_comm]

theorem conflictsOf_ensureKey (m : List (String × List String)) (k a : String) :
    conflictsOf (ensureKey m k) a = conflictsOf m a := by
  rw [ensureKey]
  by_cases h : (lookupA m k).isSome
  · rw [if_pos h]
  · rw [if_neg h]
    rw [conflictsOf, conflictsOf, lookupA_append]
    cases hma : lookupA m a with
    | some v => rfl
    | none =>
      by_cases hk : k = a
      · subst hk
        simp [lookupA_cons]
      · simp [lookupA_cons, hk, lookupA_nil]

theorem isSome_ensureKey_self (m : List (String × List String)) (k : String) :
    (lookupA (ensureKey m k) k).isSome := by
  rw [ensureKey]
  by_cases h : (lookupA m k).isSome
  · rw [if_pos h]
    exact h
  · rw [if_neg h, lookupA_append]
    cases hm : lookupA m k with
    | some v => rw [hm] at h; exact absurd rfl h
    | none =>
      simp only []
      rw [lookupA_cons, if_pos rfl]
      rfl

theorem isSome_ensureKey_mono (m : List (String × List String)) (k x : String)
    (h : (lookupA m x).isSome) : (lookupA (ensureKey m k) x).isSome := by
  rw [ensureKey]
  by_cases hk : (lookupA m k).isSome
  · rw [if_pos hk]
    exact h
  · rw [if_neg hk, lookupA_append]
    obtain ⟨v, hv⟩ := Option.isSome_iff_exists.mp h
    rw [hv]
    rfl

theorem isSome_addConflict (m : List (String × List String)) (k v x : String)
    (h : (lookupA m x).isSome) : (lookupA (addConflict m k v) x).isSome := by
  rw [addConflict, lookupA_updateA]
  by_cases hk : k = x
  · rw [if_pos hk]
    obtain ⟨w, hw⟩ := Option.isSome_iff_exists.mp h
    rw [hw]
    rfl
  · rw [if_neg hk]
    exact h

theorem mem_conflictsOf_addConflict (m : List (String × List String)) (k v a x : String)
    (hk : (lookupA m k).isSome) :
    x ∈ conflictsOf (addConflict m k v) a ↔ x ∈ conflictsOf m a ∨ (a = k ∧ x = v) := by
  rw [addConflict, conflictsOf, conflictsOf, lookupA_updateA]
  by_cases h : k = a
  · subst h
    rw [if_pos rfl]
    obtain ⟨l, hl⟩ := Option.isSome_iff_exists.mp hk
    rw [hl]
    simp [mem_insertSet]
    tauto
  · rw [if_neg h]
    have hne : ¬ a = k := fun hc => h hc.symm
    simp [hne]

theorem mem_buildConflictMap (pairs : List (String × String)) (a b : String) :
    b ∈ conflictsOf (buildConflictMap pairs) a ↔ (a, b) ∈ pairs ∨ (b, a) ∈ pairs := by
  suffices hgen : ∀ (l : List (String × String)) (acc : List (String × List String)),
      b ∈ conflictsOf (l.foldl (fun m p =>
        addConflict (addConflict (ensureKey (ensureKey m p.1) p.2) p.1 p.2) p.2 p.1) acc) a ↔
      b ∈ conflictsOf acc a ∨ (a, b) ∈ l ∨ (b, a) ∈ l by
    rw [buildConflictMap, hgen pairs []]
    simp [conflictsOf, lookupA_nil]
  intro l
  induction l with
  | nil =>
    intro acc
    simp
  | cons p rest ih =>
    intro acc
    obtain ⟨x, y⟩ := p
    rw [List.foldl_cons]
    rw [ih]
    have hkx : (lookupA (ensureKey (ensureKey acc x) y) x).isSome :=
      isSome_ensureKey_mono _ _ _ (isSome_ensureKey_self acc x)
    have hky : (lookupA (addConflict (ensureKey (ensureKey acc x) y) x y) y).isSome :=
      isSome_addConflict _ _ _ _ (isSome_ensureKey_self (ensureKey acc x) y)
    rw [mem_conflictsOf_addConflict _ _ _ _ _ hky]
    rw [mem_conflictsOf_addConflict _ _ _ _ _ hkx]
    rw [conflictsOf_ensureKey, conflictsOf_ensureKey]
    constructor
    · rintro (((hacc | ⟨rfl, rfl⟩) | ⟨rfl, rfl⟩) | hl | hl)
      · exact Or.inl hacc
      · exact Or.inr (Or.inl (List.mem_cons_self _ _))
      · exact Or.inr (Or.inr (List.mem_cons_self _ _))
      · exact Or.inr (Or.inl (List.mem_cons_of_mem _ hl))
      · exact Or.inr (Or.inr (List.mem_cons_of_mem _ hl))
    · rintro (hacc | hab | hba)
      · exact Or.inl (Or.inl (Or.inl hacc))
      · rcases List.mem_cons.mp hab with heq | hl
        · cases heq
          exact Or.inl (Or.inl (Or.inr ⟨rfl, rfl⟩))
        · exact Or.inr (Or.inl hl)
      · rcases List.mem_cons.mp hba with heq | hl
        · cases heq
          exact Or.inl (Or.inr ⟨rfl, rfl⟩)
        · exact Or.inr (Or.inr hl)

/-- No section visible in `sections` houses both `a` and `b`. -/
def pairOK (sections : Sections) (a b : String) : Prop :=
  ∀ sid sec, lookupA sections sid = some sec → ¬ (a ∈ sec.students ∧ b ∈ sec.students)

theorem placeStudent_occupants (studentCode : String) :
    ∀ (ids : List SectionId) (s0 s1 : Sections),
      ids.foldlM (fun s sid => placeOne s studentCode sid) s0 = .ok s1 →
      ∀ sid sec, lookupA s1 sid = some sec → ∀ c ∈ sec.students,
        (∃ sec0, lookupA s0 sid = some sec0 ∧ c ∈ sec0.students) ∨
        (c = studentCode ∧ sid ∈ ids) := by
  intro ids
  induction ids with
  | nil =>
    intro s0 s1 h sid sec hsec c hc
    rw [List.foldlM_nil] at h
    cases h
    exact Or.inl ⟨sec, hsec, hc⟩
  | cons sid0 rest ih =>
    intro s0 s1 h sid sec hsec c hc
    rw [List.foldlM_cons] at h
    cases hstep : placeOne s0 studentCode sid0 with
    | error e =>
      rw [hstep] at h
      exact Except.noConfusion h
    | ok s2 =>
      rw [hstep] at h
      rcases ih s2 s1 h sid sec hsec c hc with ⟨sec0, hs0, hmem⟩ | ⟨rfl, hin⟩
      · obtain ⟨secb, hsecb, hlt, rfl⟩ := placeOne_ok_inv s0 studentCode sid0 s2 hstep
        rw [lookupA_updateA] at hs0
        by_cases hq : sid0 = sid
        · rw [if_pos hq] at hs0
          rw [hq] at hsecb
          rw [hsecb] at hs0
          injection hs0 with hs0
          rw [← hs0] at hmem
          simp [pushStudent] at hmem
          rcases hmem with hmem | hmem
          · exact Or.inl ⟨secb, hq ▸ hsecb, hmem⟩
          · exact Or.inr ⟨hmem, by simp [← hq]⟩
        · rw [if_neg hq] at hs0
          exact Or.inl ⟨sec0, hs0, hmem⟩
      · exact Or.inr ⟨rfl, List.mem_cons_of_mem _ hin⟩

theorem placePreassigned_occupants :
    ∀ (pre : List (String × List SectionId)) (s0 s1 : Sections),
      placePreassigned s0 pre = .ok s1 →
      ∀ sid sec, lookupA s1 sid = some sec → ∀ c ∈ sec.students,
        (∃ sec0, lookupA s0 sid = some sec0 ∧ c ∈ sec0.students) ∨
        ∃ ids, (c, ids) ∈ pre ∧ sid ∈ ids := by
  intro pre
  induction pre with
  | nil =>
    intro s0 s1 h sid sec hsec c hc
    rw [placePreassigned, List.foldlM_nil] at h
    cases h
    exact Or.inl ⟨sec, hsec, hc⟩
  | cons entry rest ih =>
    intro s0 s1 h sid sec hsec c hc
    rw [placePreassigned, List.foldlM_cons] at h
    cases hstep : entry.2.foldlM (fun s sid => placeOne s entry.1 sid) s0 with
    | error e =>
      rw [hstep] at h
      exact Except.noConfusion h
    | ok s2 =>
      rw [hstep] at h
      rcases ih s2 s1 h sid sec hsec c hc with ⟨sec0, hs0, hmem⟩ | ⟨ids, hin, hsid⟩
      · rcases placeStudent_occupants entry.1 entry.2 s0 s2 hstep sid sec0 hs0 c hmem with
          hleft | ⟨rfl, hin⟩
        · exact Or.inl hleft
        · exact Or.inr ⟨entry.2, by
            rcases entry with ⟨e1, e2⟩
            exact List.mem_cons_self _ _, hin⟩
      · exact Or.inr ⟨ids, List.mem_cons_of_mem _ hin, hsid⟩

theorem pairOK_after_preassignment (s0 s1 : Sections)
    (pre : List (String × List SectionId)) (conflictMap : List (String × List String))
    (a b : String) (hab : a ≠ b) (hconf : b ∈ conflictsOf conflictMap a)
    (hempty : ∀ sid sec, lookupA s0 sid = some sec → sec.students = [])
    (hp : placePreassigned s0 pre = .ok s1)
    (hv : preConflictViolation s1 pre conflictMap = false) :
    pairOK s1 a b := by
  rintro sid sec hsec ⟨ha, hb⟩
  rcases placePreassigned_occupants pre s0 s1 hp sid sec hsec a ha with
    ⟨sec0, hs0, hmem⟩ | ⟨ids, hin, hsid⟩
  · rw [hempty sid sec0 hs0] at hmem
    exact absurd hmem (List.not_mem_nil a)
  · have hviol : preConflictViolation s1 pre conflictMap = true := by
      rw [preConflictViolation, List.any_eq_true]
      refine ⟨(a, ids), hin, ?_⟩
      simp only []
      rw [List.any_eq_true]
      refine ⟨sid, hsid, ?_⟩
      simp only [hsec]
      rw [List.any_eq_true]
      refine ⟨b, hb, ?_⟩
      rw [if_neg (fun hc => hab hc.symm)]
      simpa using hconf
    rw [hv] at hviol
    exact Bool.noConfusion hviol

theorem pairOK_commit (conflictMap : List (String × List String)) (sections : Sections)
    (studentCode : String) (a2 : Assignment) (a b : String) (hab : a ≠ b)
    (hOK : pairOK sections a b) (hnd : (a2.map Prod.snd).Nodup)
    (hconf : ∀ q ∈ a2, ∀ sec, lookupA sections q.2 = some sec →
      ∀ st ∈ sec.students, st ∉ conflictsOf conflictMap studentCode)
    (hca : studentCode = a → b ∈ conflictsOf conflictMap a)
    (hcb : studentCode = b → a ∈ conflictsOf conflictMap b) :
    pairOK (commit sections studentCode a2) a b := by
  rintro sid sec hsec ⟨ha, hb⟩
  rw [lookupA_commit studentCode sid a2 sections hnd] at hsec
  by_cases hmem : sid ∈ a2.map Prod.snd
  · rw [if_pos hmem] at hsec
    cases hs0 : lookupA sections sid with
    | none =>
      rw [hs0] at hsec
      exact Option.noConfusion hsec
    | some sec0 =>
      rw [hs0] at hsec
      injection hsec with he
      rw [← he] at ha hb
      simp [pushStudent] at ha hb
      obtain ⟨q, hq, hqeq⟩ := List.mem_map.mp hmem
      rcases ha with ha | ha
      · rcases hb with hb | hb
        · exact hOK sid sec0 hs0 ⟨ha, hb⟩
        · exact (hconf q hq sec0 (by rw [hqeq]; exact hs0) a ha) (hb ▸ hcb hb.symm)
      · rcases hb with hb | hb
        · exact (hconf q hq sec0 (by rw [hqeq]; exact hs0) b hb) (ha ▸ hca ha.symm)
        · exact hab (ha.trans hb.symm)
  · rw [if_neg hmem] at hsec
    exact hOK sid sec hsec ⟨ha, hb⟩

theorem pairOK_processStudent (inp : RunInput) (st : LoopState) (studentCode : String)
    (st2 : LoopState) (a b : String) (hab : a ≠ b)
    (hpa : b ∈ conflictsOf (buildConflictMap inp.conflictPairs) a)
    (hpb : a ∈ conflictsOf (buildConflictMap inp.conflictPairs) b)
    (hOK : pairOK st.sections a b)
    (h : processStudent inp (buildConflictMap inp.conflictPairs) st studentCode = .ok st2) :
    pairOK st2.sections a b := by
  rcases processStudent_ok_cases inp (buildConflictMap inp.conflictPairs) st studentCode st2 h
    with heq | ⟨first, rest, firstCost, restCosts, hva, hc1, hc2, heq⟩
  · rw [heq]
    exact hOK
  · rw [heq]
    obtain ⟨hfstl, -⟩ := mapM_cost_inv _ rest restCosts hc2
    have hbestmem : (selectBest (first, firstCost) restCosts).1 ∈ first :: rest := by
      rcases List.mem_cons.mp (selectBest_mem restCosts (first, firstCost)) with heq2 | hmem2
      · rw [heq2]
        exact List.mem_cons_self _ _
      · rw [← hfstl]
        exact List.mem_cons_of_mem _ (List.mem_map_of_mem Prod.fst hmem2)
    rw [← hva] at hbestmem
    have hval := (findValidAssignments_mem _ _ _ _ _ _).mp hbestmem
    have hsnd := sids_nodup_of_valid _ _ _ _ _ hval (resolveSubjects_nodup _ _)
    refine pairOK_commit (buildConflictMap inp.conflictPairs) st.sections studentCode _ a b hab
      hOK hsnd ?_ (fun hc => hc ▸ hpa) (fun hc => hc ▸ hpb)
    intro q hq sec hsec st3 hst3
    obtain ⟨-, hok, -⟩ := hval
    obtain ⟨-, -, sec2, hsec2, -, hforb⟩ := hok q hq
    rw [hsec2] at hsec
    injection hsec with hsec
    rw [hsec] at hforb
    exact hforb st3 hst3

theorem pairOK_buildSections (subjectsConfig : List Subject) (scheduleConfig : Cfgs)
    (a b : String) : pairOK (buildSections subjectsConfig scheduleConfig) a b := by
  rintro sid sec hsec ⟨ha, -⟩
  obtain ⟨-, hempty, -⟩ := buildSections_mem subjectsConfig scheduleConfig _
    (mem_of_lookupA hsec)
  rw [hempty] at ha
  exact absurd ha (List.not_mem_nil a)

/-- C5: at the end of a completed run, no section houses both members of a
conflict pair: preassigned placements are vetted by the post-placement scan
(a violation aborts the run) and searched students never enter a section
holding a conflicting occupant. -/
theorem conflict_pairs_never_share_section (inp : RunInput) (r : ScheduleResult)
    (a b : String) (hpair : (a, b) ∈ inp.conflictPairs) (hab : a ≠ b)
    (hrun : scheduleStudents inp = .ok r) :
    ∀ sid sec, lookupA r.sections sid = some sec →
      ¬ (a ∈ sec.students ∧ b ∈ sec.students) := by
  obtain ⟨sections1, st, hp, hv, hrl, hsec, -⟩ := scheduleStudents_ok_inv inp r hrun
  have hpa : b ∈ conflictsOf (buildConflictMap inp.conflictPairs) a :=
    (mem_buildConflictMap _ _ _).mpr (Or.inl hpair)
  have hpb : a ∈ conflictsOf (buildConflictMap inp.conflictPairs) b :=
    (mem_buildConflictMap _ _ _).mpr (Or.inr hpair)
  have h1 : pairOK sections1 a b := by
    refine pairOK_after_preassignment _ _ _ _ a b hab hpa ?_ hp hv
    intro sid sec hs
    exact (buildSections_mem inp.subjectsConfig inp.scheduleConfig _ (mem_of_lookupA hs)).2.1
  have h2 : pairOK st.sections a b := by
    refine foldlM_except_inv (fun s => pairOK s.sections a b) _ ?_ _ _ _ h1 hrl
    intro s x s2 hP hstep
    exact pairOK_processStudent inp s x s2 a b hab hpa hpb hP hstep
  rw [hsec]
  exact h2

/-- Extract the result of a completed run (a dummy on the error path,
used only to name concrete results of runs known to complete). -/
def resultOf (e : Except String ScheduleResult) : ScheduleResult :=
  match e with
  | .ok r => r
  | .error _ => ⟨[], [], [], ⟨0, 0, 0, 0, 0⟩⟩

/-- A run with a conflicting pair of students both enrolled in one subject. -/
def inpC5 : RunInput :=
  { enrollments := [("A", ["X"]), ("B", ["X"])],
    studentCourses := [("A", "1A"), ("B", "1A")],
    studentCodeToName := [("A", "Ana"), ("B", "Beto")],
    studentPreferences := [],
    preassignedSections := [],
    conflictPairs := [("A", "B")],
    subjectsConfig := [⟨1, "X"⟩],
    scheduleConfig := [(1, ⟨1, 2, 2⟩)],
    balancingStrategy := .speed }

/-- The result of the `inpC5` run. -/
def rC5 : ScheduleResult := resultOf (scheduleStudents inpC5)

theorem conflict_pairs_never_share_section_w :
    ("A", "B") ∈ inpC5.conflictPairs ∧ "A" ≠ "B" ∧
      scheduleStudents inpC5 = .ok rC5 ∧
      lookupA rC5.sections ⟨1, Slot.one⟩ =
        some ((lookupA rC5.sections ⟨1, Slot.one⟩).getD ⟨0, 0, [], 0⟩) ∧
      ¬ ("A" ∈ ((lookupA rC5.sections ⟨1, Slot.one⟩).getD ⟨0, 0, [], 0⟩).students ∧
          "B" ∈ ((lookupA rC5.sections ⟨1, Slot.one⟩).getD ⟨0, 0, [], 0⟩).students) :=
  ⟨by decide, by decide, by rfl, by rfl,
    conflict_pairs_never_share_section inpC5 rC5 "A" "B" (by decide) (by decide) (by rfl)
      ⟨1, Slot.one⟩ ((lookupA rC5.sections ⟨1, Slot.one⟩).getD ⟨0, 0, [], 0⟩) (by rfl)⟩

/-! ### Per-student block uniqueness (C3) -/

/-- No student occupies two distinct sections sharing a block. -/
def studentBlocksOK (sections : Sections) : Prop :=
  ∀ (code : String) (sid1 sid2 : SectionId) (sec1 sec2 : Section), sid1 ≠ sid2 →
    lookupA sections sid1 = some sec1 → lookupA sections sid2 = some sec2 →
    code ∈ sec1.students → code ∈ sec2.students → sec1.block ≠ sec2.block

/-- Every section record agrees with the subject configuration on owner and
block (occupants aside, the run never changes a section). -/
def consistent (sections : Sections) (scheduleConfig : Cfgs) : Prop :=
  ∀ p ∈ sections, (Prod.snd p).subjectId = (Prod.fst p).subjectId ∧
    ∃ c, lookupA scheduleConfig (Prod.fst p).subjectId = some c ∧
      (Prod.snd p).block = slotBlock c (Prod.fst p).slot

/-- Every occupant of every section belongs to the allowed set. -/
def occupantsIn (sections : Sections) (allowed : List String) : Prop :=
  ∀ sid sec, lookupA sections sid = some sec → ∀ c ∈ sec.students, c ∈ allowed

/-- The block of a section id in the current state. -/
def blockAt (sections : Sections) (sid : SectionId) : Option Nat :=
  (lookupA sections sid).map Section.block

theorem blockAt_updateA_push (sections : Sections) (k : SectionId) (code : String)
    (sid : SectionId) :
    blockAt (updateA sections k (pushStudent code)) sid = blockAt sections sid := by
  rw [blockAt, blockAt, lookupA_updateA]
  by_cases h : k = sid
  · rw [if_pos h]
    cases lookupA sections sid <;> rfl
  · rw [if_neg h]

theorem consistent_updateA_push (sections : Sections) (scheduleConfig : Cfgs)
    (k : SectionId) (code : String) (h : consistent sections scheduleConfig) :
    consistent (updateA sections k (pushStudent code)) scheduleConfig := by
  intro p hp
  obtain ⟨q, hq, heq⟩ := List.mem_map.mp hp
  by_cases hk : q.1 = k
  · rw [if_pos hk] at heq
    obtain ⟨h1, c, h2, h3⟩ := h q hq
    rw [← heq]
    exact ⟨h1, c, h2, h3⟩
  · rw [if_neg hk] at heq
    rw [← heq]
    exact h q hq

theorem consistent_buildSections (subjectsConfig : List Subject) (scheduleConfig : Cfgs) :
    consistent (buildSections subjectsConfig scheduleConfig) scheduleConfig := by
  intro p hp
  obtain ⟨h1, -, c, h2, h3, -⟩ := buildSections_mem subjectsConfig scheduleConfig p hp
  exact ⟨h1, c, h2, h3⟩

theorem consistent_commit (sections : Sections) (scheduleConfig : Cfgs) (code : String)
    (a : Assignment) (h : consistent sections scheduleConfig) :
    consistent (commit sections code a) scheduleConfig := by
  induction a generalizing sections with
  | nil => exact h
  | cons q rest ih =>
    rw [commit_cons]
    exact ih _ (consistent_updateA_push sections scheduleConfig q.2 code h)

theorem blockAt_commit (sections : Sections) (code : String) (a : Assignment)
    (sid : SectionId) :
    blockAt (commit sections code a) sid = blockAt sections sid := by
  induction a generalizing sections with
  | nil => rfl
  | cons q rest ih =>
    rw [commit_cons, ih, blockAt_updateA_push]

theorem blockAt_placePreassigned (pre : List (String × List SectionId)) :
    ∀ (s0 s1 : Sections), placePreassigned s0 pre = .ok s1 →
      ∀ sid, blockAt s1 sid = blockAt s0 sid := by
  intro s0 s1 h sid
  refine foldlM_except_inv (fun s => blockAt s sid = blockAt s0 sid) _ ?_ pre s0 s1 rfl h
  intro s p s2 hP hstep
  have hinner : blockAt s2 sid = blockAt s sid := by
    refine foldlM_except_inv (fun t => blockAt t sid = blockAt s sid) _ ?_ p.2 s s2 rfl hstep
    intro t sid2 t2 hPt hstept
    obtain ⟨sec, -, -, rfl⟩ := placeOne_ok_inv t p.1 sid2 t2 hstept
    rw [blockAt_updateA_push]
    exact hPt
  rw [hinner, hP]

theorem lookupA_unique_of_keysND {κ ν : Type} [DecidableEq κ] {m : List (κ × ν)}
    (hnd : (m.map Prod.fst).Nodup) {k : κ} {v1 v2 : ν}
    (h1 : (k, v1) ∈ m) (h2 : (k, v2) ∈ m) : v1 = v2 := by
  have e1 := lookupA_eq_of_mem_nodup hnd h1
  have e2 := lookupA_eq_of_mem_nodup hnd h2
  rw [e1] at e2
  exact Option.some.inj e2

theorem occupantsIn_buildSections (subjectsConfig : List Subject) (scheduleConfig : Cfgs)
    (allowed : List String) :
    occupantsIn (buildSections subjectsConfig scheduleConfig) allowed := by
  intro sid sec hsec c hc
  obtain ⟨-, hemp, -⟩ := buildSections_mem subjectsConfig scheduleConfig _
    (mem_of_lookupA hsec)
  rw [hemp] at hc
  exact absurd hc (List.not_mem_nil c)

theorem occupantsIn_placePreassigned (pre : List (String × List SectionId))
    (s0 s1 : Sections) (allowed : List String)
    (h0 : occupantsIn s0 allowed) (hsub : ∀ p ∈ pre, (Prod.fst p) ∈ allowed)
    (h : placePreassigned s0 pre = .ok s1) :
    occupantsIn s1 allowed := by
  intro sid sec hsec c hc
  rcases placePreassigned_occupants pre s0 s1 h sid sec hsec c hc with
    ⟨sec0, hs0, hmem⟩ | ⟨ids, hin, -⟩
  · exact h0 sid sec0 hs0 c hmem
  · exact hsub (c, ids) hin

theorem studentBlocksOK_after_preassignment (s0 s1 : Sections)
    (pre : List (String × List SectionId))
    (hkeys : (pre.map Prod.fst).Nodup)
    (hempty : ∀ sid sec, lookupA s0 sid = some sec → sec.students = [])
    (hPre : ∀ entry ∈ pre, List.Pairwise (fun t1 t2 => ∀ u1 u2, lookupA s0 t1 = some u1 →
      lookupA s0 t2 = some u2 → u1.block ≠ u2.block) (Prod.snd entry))
    (hp : placePreassigned s0 pre = .ok s1) :
    studentBlocksOK s1 := by
  intro code sid1 sid2 sec1 sec2 hne h1 h2 hc1 hc2
  rcases placePreassigned_occupants pre s0 s1 hp sid1 sec1 h1 code hc1 with
    ⟨sec0, hs0, hm⟩ | ⟨ids1, hin1, hsid1⟩
  · rw [hempty _ _ hs0] at hm
    exact absurd hm (List.not_mem_nil code)
  rcases placePreassigned_occupants pre s0 s1 hp sid2 sec2 h2 code hc2 with
    ⟨sec0, hs0, hm⟩ | ⟨ids2, hin2, hsid2⟩
  · rw [hempty _ _ hs0] at hm
    exact absurd hm (List.not_mem_nil code)
  have hids : ids1 = ids2 := lookupA_unique_of_keysND hkeys hin1 hin2
  subst hids
  have hpair := hPre (code, ids1) hin1
  have hsymm : Symmetric (fun t1 t2 => ∀ u1 u2, lookupA s0 t1 = some u1 →
      lookupA s0 t2 = some u2 → u1.block ≠ u2.block) := by
    intro t1 t2 hr u2 u1 hu2 hu1
    exact (hr u1 u2 hu1 hu2).symm
  have hR := List.Pairwise.forall hsymm hpair hsid1 hsid2 hne
  have hb1 : (lookupA s0 sid1).map Section.block = some sec1.block := by
    have hb := blockAt_placePreassigned pre s0 s1 hp sid1
    rw [blockAt, blockAt, h1] at hb
    rw [← hb]
    rfl
  have hb2 : (lookupA s0 sid2).map Section.block = some sec2.block := by
    have hb := blockAt_placePreassigned pre s0 s1 hp sid2
    rw [blockAt, blockAt, h2] at hb
    rw [← hb]
    rfl
  cases hu1 : lookupA s0 sid1 with
  | none =>
    rw [hu1] at hb1
    exact Option.noConfusion hb1
  | some u1 =>
    cases hu2 : lookupA s0 sid2 with
    | none =>
      rw [hu2] at hb2
      exact Option.noConfusion hb2
    | some u2 =>
      rw [hu1] at hb1
      rw [hu2] at hb2
      injection hb1 with hb1
      injection hb2 with hb2
      rw [← hb1, ← hb2]
      exact hR u1 u2 hu1 hu2

theorem selectBest_fst_mem (first : Assignment) (c0 : Nat) (rest : List Assignment)
    (rcs : List (Assignment × Nat)) (hfstl : rcs.map Prod.fst = rest) :
    (selectBest (first, c0) rcs).1 ∈ first :: rest := by
  rcases List.mem_cons.mp (selectBest_mem rcs (first, c0)) with heq2 | hmem2
  · rw [heq2]
    exact List.mem_cons_self _ _
  · rw [← hfstl]
    exact List.mem_cons_of_mem _ (List.mem_map_of_mem Prod.fst hmem2)

theorem blocksOK_processStudent (inp : RunInput) (conflictMap : List (String × List String))
    (st : LoopState) (studentCode : String) (st2 : LoopState) (allowed : List String)
    (hOK : studentBlocksOK st.sections)
    (hocc : occupantsIn st.sections allowed)
    (hcode : studentCode ∉ allowed)
    (hcons : consistent st.sections inp.scheduleConfig)
    (h : processStudent inp conflictMap st studentCode = .ok st2) :
    studentBlocksOK st2.sections ∧ occupantsIn st2.sections (allowed ++ [studentCode]) ∧
      consistent st2.sections inp.scheduleConfig := by
  rcases processStudent_ok_cases inp conflictMap st studentCode st2 h with
    heq | ⟨first, rest, firstCost, restCosts, hva, hc1, hc2, heq⟩
  · rw [heq]
    exact ⟨hOK,
      fun sid sec hs c hc => List.mem_append.mpr (Or.inl (hocc sid sec hs c hc)), hcons⟩
  · rw [heq]
    have hfstl := (mapM_cost_inv _ rest restCosts hc2).1
    have hbestmem := selectBest_fst_mem first firstCost rest restCosts hfstl
    rw [← hva] at hbestmem
    have hval := (findValidAssignments_mem _ _ _ _ _ _).mp hbestmem
    have hsnd := sids_nodup_of_valid _ _ _ _ _ hval (resolveSubjects_nodup _ _)
    obtain ⟨hfst, hok, hbl⟩ := hval
    have hsplit : ∀ sid sec,
        lookupA (commit st.sections studentCode (selectBest (first, firstCost) restCosts).1)
          sid = some sec →
        ∃ u, lookupA st.sections sid = some u ∧ u.block = sec.block ∧
          ∀ c2 ∈ sec.students, c2 ∈ u.students ∨
            (sid ∈ (selectBest (first, firstCost) restCosts).1.map Prod.snd ∧
              c2 = studentCode) := by
      intro sid sec hs
      rw [lookupA_commit studentCode sid _ st.sections hsnd] at hs
      by_cases hmem : sid ∈ (selectBest (first, firstCost) restCosts).1.map Prod.snd
      · rw [if_pos hmem] at hs
        cases hu : lookupA st.sections sid with
        | none =>
          rw [hu] at hs
          exact Option.noConfusion hs
        | some u =>
          rw [hu] at hs
          injection hs with hs
          refine ⟨u, rfl, ?_, ?_⟩
          · rw [← hs]
            rfl
          · intro c2 hc2
            rw [← hs] at hc2
            simp [pushStudent] at hc2
            rcases hc2 with hc2 | hc2
            · exact Or.inl hc2
            · exact Or.inr ⟨hmem, hc2⟩
      · rw [if_neg hmem] at hs
        exact ⟨sec, hs, rfl, fun c2 hc2 => Or.inl hc2⟩
    have hblockq : ∀ q ∈ (selectBest (first, firstCost) restCosts).1, ∀ u,
        lookupA st.sections q.2 = some u →
        u.block = choiceBlock inp.scheduleConfig q := by
      intro q hq u hu
      obtain ⟨hsubj, -, -⟩ := hok q hq
      obtain ⟨-, c, hcfg, hub⟩ := hcons (q.2, u) (mem_of_lookupA hu)
      rw [choiceBlock]
      rw [show Prod.fst q = q.2.subjectId from hsubj.symm]
      simp only [hcfg]
      exact hub
    refine ⟨?_, ?_, consistent_commit _ _ _ _ hcons⟩
    · intro code2 sid1 sid2 sec1 sec2 hne h1 h2 hm1 hm2
      obtain ⟨u1, hu1, hub1, hmem1⟩ := hsplit sid1 sec1 h1
      obtain ⟨u2, hu2, hub2, hmem2⟩ := hsplit sid2 sec2 h2
      by_cases hceq : code2 = studentCode
      · subst hceq
        have hnotold1 : code2 ∉ u1.students := fun hc => hcode (hocc sid1 u1 hu1 code2 hc)
        have hnotold2 : code2 ∉ u2.students := fun hc => hcode (hocc sid2 u2 hu2 code2 hc)
        rcases hmem1 code2 hm1 with hold | ⟨hin1, -⟩
        · exact absurd hold hnotold1
        rcases hmem2 code2 hm2 with hold | ⟨hin2, -⟩
        · exact absurd hold hnotold2
        obtain ⟨q1, hq1, hq1e⟩ := List.mem_map.mp hin1
        obtain ⟨q2, hq2, hq2e⟩ := List.mem_map.mp hin2
        rw [← hq1e] at hu1
        rw [← hq2e] at hu2
        have hb1 := hblockq q1 hq1 u1 hu1
        have hb2 := hblockq q2 hq2 u2 hu2
        intro hblocks
        have hcbeq : choiceBlock inp.scheduleConfig q1 = choiceBlock inp.scheduleConfig q2 := by
          rw [← hb1, ← hb2, hub1, hub2, hblocks]
        have hq12 : q1 = q2 := List.inj_on_of_nodup_map hbl hq1 hq2 hcbeq
        rw [hq12] at hq1e
        rw [hq1e] at hq2e
        exact hne hq2e
      · rcases hmem1 code2 hm1 with hold1 | ⟨-, hcc⟩
        · rcases hmem2 code2 hm2 with hold2 | ⟨-, hcc⟩
          · rw [← hub1, ← hub2]
            exact hOK code2 sid1 sid2 u1 u2 hne hu1 hu2 hold1 hold2
          · exact absurd hcc hceq
        · exact absurd hcc hceq
    · intro sid sec hs c hc
      obtain ⟨u, hu, -, hmem⟩ := hsplit sid sec hs
      rcases hmem c hc with hold | ⟨-, rfl⟩
      · exact List.mem_append.mpr (Or.inl (hocc sid u hu c hold))
      · exact List.mem_append.mpr (Or.inr (List.mem_cons_self _ _))

theorem blocksOK_runLoop (inp : RunInput) (conflictMap : List (String × List String)) :
    ∀ (students : List String) (st st2 : LoopState) (allowed : List String),
      students.Nodup →
      (∀ c ∈ students, c ∉ allowed) →
      studentBlocksOK st.sections →
      occupantsIn st.sections allowed →
      consistent st.sections inp.scheduleConfig →
      runLoop inp conflictMap st students = .ok st2 →
      studentBlocksOK st2.sections := by
  intro students
  induction students with
  | nil =>
    intro st st2 allowed _ _ hOK _ _ h
    rw [runLoop, List.foldlM_nil] at h
    cases h
    exact hOK
  | cons code rest ih =>
    intro st st2 allowed hnd hfr hOK hocc hcons h
    rw [runLoop, List.foldlM_cons] at h
    cases hstep : processStudent inp conflictMap st code with
    | error e =>
      rw [hstep] at h
      exact Except.noConfusion h
    | ok st1 =>
      rw [hstep] at h
      obtain ⟨hOK1, hocc1, hcons1⟩ := blocksOK_processStudent inp conflictMap st code st1
        allowed hOK hocc (hfr code (List.mem_cons_self _ _)) hcons hstep
      rw [List.nodup_cons] at hnd
      refine ih st1 st2 (allowed ++ [code]) hnd.2 ?_ hOK1 hocc1 hcons1 h
      intro c hc hmem
      rcases List.mem_append.mp hmem with hm | hm
      · exact hfr c (List.mem_cons_of_mem _ hc) hm
      · simp at hm
        rw [hm] at hc
        exact hnd.1 hc

/-- C3 amended: in every completed run whose preassigned students each have
pairwise block-distinct fixed sections (the property the external pre-flight
detector guarantees before the engine runs), no student ends up holding two
distinct sections that share a block.  Students placed by the search phase
need no such precondition; the hypothesis is needed only because the engine
itself does not re-check the blocks of preassigned sections. -/
theorem per_student_blocks_distinct (inp : RunInput) (r : ScheduleResult)
    (hE : (inp.enrollments.map Prod.fst).Nodup)
    (hP : (inp.preassignedSections.map Prod.fst).Nodup)
    (hPre : ∀ entry ∈ inp.preassignedSections,
      List.Pairwise (fun t1 t2 => ∀ u1 u2,
        lookupA (buildSections inp.subjectsConfig inp.scheduleConfig) t1 = some u1 →
        lookupA (buildSections inp.subjectsConfig inp.scheduleConfig) t2 = some u2 →
        u1.block ≠ u2.block) (Prod.snd entry))
    (hrun : scheduleStudents inp = .ok r) :
    studentBlocksOK r.sections := by
  obtain ⟨sections1, st, hp, hv, hrl, hsec, -⟩ := scheduleStudents_ok_inv inp r hrun
  have hempty : ∀ sid sec,
      lookupA (buildSections inp.subjectsConfig inp.scheduleConfig) sid = some sec →
      sec.students = [] :=
    fun sid sec hs => (buildSections_mem _ _ _ (mem_of_lookupA hs)).2.1
  have h1 : studentBlocksOK sections1 :=
    studentBlocksOK_after_preassignment _ _ _ hP hempty hPre hp
  have hocc1 : occupantsIn sections1 (inp.preassignedSections.map Prod.fst) := by
    refine occupantsIn_placePreassigned _ _ _ _ (occupantsIn_buildSections _ _ _) ?_ hp
    intro p hp2
    exact List.mem_map_of_mem Prod.fst hp2
  have hcons1 : consistent sections1 inp.scheduleConfig := by
    refine foldlM_except_inv (fun s => consistent s inp.scheduleConfig) _ ?_ _ _ _
      (consistent_buildSections _ _) hp
    intro s p s2 hPc hstep
    refine foldlM_except_inv (fun t => consistent t inp.scheduleConfig) _ ?_ p.2 s s2 hPc hstep
    intro t sid t2 hPt hstept
    obtain ⟨sec, -, -, rfl⟩ := placeOne_ok_inv t p.1 sid t2 hstept
    exact consistent_updateA_push t inp.scheduleConfig sid p.1 hPt
  rw [hsec]
  refine blocksOK_runLoop inp _ _ ⟨sections1, [], 0⟩ st
    (inp.preassignedSections.map Prod.fst) (List.Nodup.filter _ hE) ?_ h1 hocc1 hcons1 hrl
  intro c hc hmem
  obtain ⟨-, hc2⟩ := List.mem_filter.mp hc
  have hct : (inp.preassignedSections.map Prod.fst).contains c = true := by simpa using hmem
  rw [hct] at hc2
  simp at hc2

/-- C3 counterexample input: student `P` is preassigned the two sections
`1.1` and `2.1`, which sit on the same block 1; `scheduleStudents` places
both without complaint (the engine validates capacity and conflicts but not
block uniqueness of preassignments, which is done upfront in the UI). -/
def inpC3 : RunInput :=
  { enrollments := [],
    studentCourses := [],
    studentCodeToName := [("P", "Pe")],
    studentPreferences := [],
    preassignedSections := [("P", [⟨1, Slot.one⟩, ⟨2, Slot.one⟩])],
    conflictPairs := [],
    subjectsConfig := [⟨1, "X"⟩, ⟨2, "Y"⟩],
    scheduleConfig := [(1, ⟨1, 2, 30⟩), (2, ⟨1, 3, 30⟩)],
    balancingStrategy := .speed }

/-- The result of the `inpC3` run. -/
def rC3 : ScheduleResult := resultOf (scheduleStudents inpC3)

/-- C3 counterexample: a completed run in which the preassigned student `P`
holds two distinct sections on the same block — refuting the claim for
preassignment-placed students of an arbitrary run. -/
theorem per_student_block_claim_cex :
    scheduleStudents inpC3 = .ok rC3 ∧ ¬ studentBlocksOK rC3.sections := by
  constructor
  · rfl
  · intro h
    exact absurd (h "P" ⟨1, Slot.one⟩ ⟨2, Slot.one⟩
        ((lookupA rC3.sections ⟨1, Slot.one⟩).getD ⟨0, 0, [], 0⟩)
        ((lookupA rC3.sections ⟨2, Slot.one⟩).getD ⟨0, 0, [], 0⟩)
        (by decide) (by rfl) (by rfl) (by decide) (by decide))
      (by decide)

/-- Witness input for C3: one student enrolled in two subjects that share
their block pairs. -/
def inpC3w : RunInput :=
  { enrollments := [("A", ["X", "Y"])],
    studentCourses := [("A", "1A")],
    studentCodeToName := [("A", "Ana")],
    studentPreferences := [],
    preassignedSections := [],
    conflictPairs := [],
    subjectsConfig := [⟨1, "X"⟩, ⟨2, "Y"⟩],
    scheduleConfig := [(1, ⟨1, 2, 30⟩), (2, ⟨1, 2, 30⟩)],
    balancingStrategy := .speed }

/-- The result of the `inpC3w` run. -/
def rC3w : ScheduleResult := resultOf (scheduleStudents inpC3w)

theorem per_student_blocks_distinct_w :
    (inpC3w.enrollments.map Prod.fst).Nodup ∧
      (inpC3w.preassignedSections.map Prod.fst).Nodup ∧
      scheduleStudents inpC3w = .ok rC3w ∧
      ((lookupA rC3w.sections ⟨1, Slot.one⟩).getD ⟨0, 0, [], 0⟩).block ≠
        ((lookupA rC3w.sections ⟨2, Slot.two⟩).getD ⟨0, 0, [], 0⟩).block :=
  ⟨by decide, by decide, by rfl,
    per_student_blocks_distinct inpC3w rC3w (by decide) (by decide)
      (by intro a hmem; simp [inpC3w] at hmem) (by rfl)
      "A" ⟨1, Slot.one⟩ ⟨2, Slot.two⟩
      ((lookupA rC3w.sections ⟨1, Slot.one⟩).getD ⟨0, 0, [], 0⟩)
      ((lookupA rC3w.sections ⟨2, Slot.two⟩).getD ⟨0, 0, [], 0⟩)
      (by decide) (by rfl) (by rfl) (by decide) (by decide)⟩

/-! ### Minimum-cost selection (C7) -/

theorem selectBest_first_min :
    ∀ (rest : List (Assignment × Nat)) (first : Assignment × Nat),
      ∃ l1 l2, first :: rest = l1 ++ selectBest first rest :: l2 ∧
        (∀ x ∈ l1, (selectBest first rest).2 < x.2) ∧
        (∀ x ∈ first :: rest, (selectBest first rest).2 ≤ x.2) := by
  intro rest
  induction rest with
  | nil =>
    intro first
    refine ⟨[], [], by simp [selectBest], by simp, ?_⟩
    intro x hx
    rcases List.mem_cons.mp hx with rfl | hx
    · exact Nat.le_refl _
    · simp at hx
  | cons c cs ih =>
    intro first
    rw [selectBest_cons]
    by_cases h : c.2 < first.2
    · rw [if_pos h]
      obtain ⟨l1, l2, hsplit, hstrict, hmin⟩ := ih c
      refine ⟨first :: l1, l2, ?_, ?_, ?_⟩
      · rw [List.cons_append, ← hsplit]
      · intro x hx
        rcases List.mem_cons.mp hx with rfl | hx
        · have := hmin c (List.mem_cons_self _ _)
          omega
        · exact hstrict x hx
      · intro x hx
        rcases List.mem_cons.mp hx with rfl | hx
        · have := hmin c (List.mem_cons_self _ _)
          omega
        · exact hmin x hx
    · rw [if_neg h]
      obtain ⟨l1, l2, hsplit, hstrict, hmin⟩ := ih first
      cases l1 with
      | nil =>
        simp only [List.nil_append] at hsplit
        injection hsplit with h1 h2
        refine ⟨[], c :: cs, ?_, by simp, ?_⟩
        · rw [List.nil_append, ← h1]
        · intro x hx
          rcases List.mem_cons.mp hx with rfl | hx
          · rw [← h1]
          · rcases List.mem_cons.mp hx with rfl | hx
            · rw [← h1]
              omega
            · exact hmin x (List.mem_cons_of_mem _ hx)
      | cons y l1t =>
        simp only [List.cons_append] at hsplit
        injection hsplit with h1 h2
        have hfirstlt : (selectBest first cs).2 < first.2 := by
          have := hstrict y (List.mem_cons_self _ _)
          rw [← h1] at this
          exact this
        refine ⟨first :: c :: l1t, l2, ?_, ?_, ?_⟩
        · rw [List.cons_append, List.cons_append, ← h2]
        · intro x hx
          rcases List.mem_cons.mp hx with rfl | hx
          · exact hfirstlt
          · rcases List.mem_cons.mp hx with rfl | hx
            · omega
            · exact hstrict x (List.mem_cons_of_mem _ hx)
        · intro x hx
          rcases List.mem_cons.mp hx with rfl | hx
          · exact hmin x (List.mem_cons_self _ _)
          · rcases List.mem_cons.mp hx with rfl | hx
            · omega
            · exact hmin x (List.mem_cons_of_mem _ hx)

theorem pairs_eq_map (f : Assignment → Nat) :
    ∀ (rcs : List (Assignment × Nat)) (rest : List Assignment),
      rcs.map Prod.fst = rest → (∀ q ∈ rcs, q.2 = f q.1) →
      rcs = rest.map (fun a => (a, f a)) := by
  intro rcs
  induction rcs with
  | nil =>
    intro rest h _
    rw [← h]
    rfl
  | cons q qs ih =>
    intro rest h hall
    rw [← h]
    rw [List.map_cons, List.map_cons]
    have hq : q = (q.1, f q.1) := by
      have := hall q (List.mem_cons_self _ _)
      rw [← this]
    rw [← hq]
    have := ih (qs.map Prod.fst) rfl (fun x hx => hall x (List.mem_cons_of_mem _ hx))
    rw [← this]

/-- C7: when a student has feasible combinations, the engine commits the one
of minimal total cost, evaluated against the single pre-scoring snapshot of
section sizes, breaking ties by backtracking enumeration order (first
minimum wins). -/
theorem commits_min_cost_first (inp : RunInput) (conflictMap : List (String × List String))
    (st : LoopState) (studentCode : String) (st2 : LoopState)
    (hsubs : resolveSubjects inp.subjectsConfig
      ((lookupA inp.enrollments studentCode).getD []) ≠ [])
    (hne : findValidAssignments (resolveSubjects inp.subjectsConfig
        ((lookupA inp.enrollments studentCode).getD [])) studentCode conflictMap
        st.sections inp.scheduleConfig ≠ [])
    (h : processStudent inp conflictMap st studentCode = .ok st2) :
    ∃ (best : Assignment) (l1 l2 : List Assignment) (f : Assignment → Nat),
      (∀ a ∈ findValidAssignments (resolveSubjects inp.subjectsConfig
          ((lookupA inp.enrollments studentCode).getD [])) studentCode conflictMap
          st.sections inp.scheduleConfig,
        calculateAssignmentCost? a (sizesOf st.sections)
          (lookupA inp.studentPreferences studentCode) inp.scheduleConfig
          inp.balancingStrategy = some (f a)) ∧
      st2.sections = commit st.sections studentCode best ∧
      findValidAssignments (resolveSubjects inp.subjectsConfig
          ((lookupA inp.enrollments studentCode).getD [])) studentCode conflictMap
          st.sections inp.scheduleConfig = l1 ++ best :: l2 ∧
      (∀ a ∈ l1, f best < f a) ∧
      (∀ a ∈ findValidAssignments (resolveSubjects inp.subjectsConfig
          ((lookupA inp.enrollments studentCode).getD [])) studentCode conflictMap
          st.sections inp.scheduleConfig, f best ≤ f a) := by
  rw [processStudent] at h
  simp only [] at h
  rw [if_neg (fun hc => hsubs (List.length_eq_zero.mp hc))] at h
  cases hva : findValidAssignments (resolveSubjects inp.subjectsConfig
      ((lookupA inp.enrollments studentCode).getD [])) studentCode conflictMap
      st.sections inp.scheduleConfig with
  | nil => exact absurd hva hne
  | cons first rest =>
    rw [hva] at h
    simp only [] at h
    cases hc1 : calculateAssignmentCost? first (sizesOf st.sections)
        (lookupA inp.studentPreferences studentCode) inp.scheduleConfig
        inp.balancingStrategy with
    | none =>
      rw [hc1] at h
      simp only [] at h
      exact Except.noConfusion h
    | some firstCost =>
      rw [hc1] at h
      cases hc2 : rest.mapM (fun a => (calculateAssignmentCost? a (sizesOf st.sections)
          (lookupA inp.studentPreferences studentCode) inp.scheduleConfig
          inp.balancingStrategy).map (fun c => (a, c))) with
      | none =>
        rw [hc2] at h
        simp only [] at h
        exact Except.noConfusion h
      | some restCosts =>
        rw [hc2] at h
        simp only [] at h
        cases h
        obtain ⟨hfstl, hall⟩ := mapM_cost_inv _ rest restCosts hc2
        have hf : ∀ a ∈ first :: rest,
            calculateAssignmentCost? a (sizesOf st.sections)
              (lookupA inp.studentPreferences studentCode) inp.scheduleConfig
              inp.balancingStrategy =
            some ((calculateAssignmentCost? a (sizesOf st.sections)
              (lookupA inp.studentPreferences studentCode) inp.scheduleConfig
              inp.balancingStrategy).getD 0) := by
          intro a ha
          rcases List.mem_cons.mp ha with rfl | ha
          · rw [hc1]
            rfl
          · rw [← hfstl] at ha
            obtain ⟨q, hq, hqe⟩ := List.mem_map.mp ha
            rw [← hqe, hall q hq]
            rfl
        set f : Assignment → Nat := fun a =>
          (calculateAssignmentCost? a (sizesOf st.sections)
            (lookupA inp.studentPreferences studentCode) inp.scheduleConfig
            inp.balancingStrategy).getD 0 with hfdef
        have hfc : firstCost = f first := by
          rw [hfdef]
          simp only []
          rw [hc1]
          rfl
        have hrcs : restCosts = rest.map (fun a => (a, f a)) := by
          refine pairs_eq_map f restCosts rest hfstl ?_
          intro q hq
          rw [hfdef]
          simp only []
          rw [hall q hq]
          rfl
        obtain ⟨l1p, l2p, hsplit, hstrict, hmin⟩ :=
          selectBest_first_min restCosts (first, firstCost)
        have hpl : (first, firstCost) :: restCosts = (first :: rest).map (fun a => (a, f a)) := by
          rw [List.map_cons, ← hrcs, ← hfc]
        have hbest : selectBest (first, firstCost) restCosts =
            ((selectBest (first, firstCost) restCosts).1,
              f (selectBest (first, firstCost) restCosts).1) := by
          have hmem := selectBest_mem restCosts (first, firstCost)
          rw [hpl] at hmem
          obtain ⟨a, -, hae⟩ := List.mem_map.mp hmem
          rw [← hae]
        refine ⟨(selectBest (first, firstCost) restCosts).1, l1p.map Prod.fst,
          l2p.map Prod.fst, f, hf, rfl, ?_, ?_, ?_⟩
        · have := congrArg (List.map Prod.fst) hsplit
          rw [List.map_cons] at this
          simp only [List.map_append, List.map_cons] at this
          rw [hfstl] at this
          exact this
        · intro a ha
          obtain ⟨x, hx, hxe⟩ := List.mem_map.mp ha
          have hxin : x ∈ (first, firstCost) :: restCosts := by
            rw [hsplit]
            exact List.mem_append.mpr (Or.inl hx)
          rw [hpl] at hxin
          obtain ⟨a2, -, ha2e⟩ := List.mem_map.mp hxin
          have hx2 : x.2 = f x.1 := by
            rw [← ha2e]
          have := hstrict x hx
          rw [hbest] at this
          simp only [] at this
          rw [hx2, hxe] at this
          exact this
        · intro a ha
          have hain : (a, f a) ∈ (first, firstCost) :: restCosts := by
            rw [hpl]
            exact List.mem_map_of_mem _ ha
          have := hmin (a, f a) hain
          rw [hbest] at this
          simp only [] at this
          exact this

/-- Extract the state of one completed loop step (dummy on the error path). -/
def stepResultOf (e : Except String LoopState) : LoopState :=
  match e with
  | .ok st => st
  | .error _ => ⟨[], [], 0⟩

/-- The loop state before the single student of `inpC3w` is processed. -/
def stC7 : LoopState := ⟨buildSections inpC3w.subjectsConfig inpC3w.scheduleConfig, [], 0⟩

/-- The loop state after the single student of `inpC3w` is processed. -/
def stC7r : LoopState :=
  stepResultOf (processStudent inpC3w (buildConflictMap inpC3w.conflictPairs) stC7 "A")

theorem commits_min_cost_first_w :
    resolveSubjects inpC3w.subjectsConfig ((lookupA inpC3w.enrollments "A").getD []) ≠ [] ∧
    findValidAssignments (resolveSubjects inpC3w.subjectsConfig
        ((lookupA inpC3w.enrollments "A").getD [])) "A"
      (buildConflictMap inpC3w.conflictPairs) stC7.sections inpC3w.scheduleConfig ≠ [] ∧
    processStudent inpC3w (buildConflictMap inpC3w.conflictPairs) stC7 "A" = .ok stC7r ∧
    ∃ (best : Assignment) (l1 l2 : List Assignment) (f : Assignment → Nat),
      (∀ a ∈ findValidAssignments (resolveSubjects inpC3w.subjectsConfig
          ((lookupA inpC3w.enrollments "A").getD [])) "A"
          (buildConflictMap inpC3w.conflictPairs) stC7.sections inpC3w.scheduleConfig,
        calculateAssignmentCost? a (sizesOf stC7.sections)
          (lookupA inpC3w.studentPreferences "A") inpC3w.scheduleConfig
          inpC3w.balancingStrategy = some (f a)) ∧
      stC7r.sections = commit stC7.sections "A" best ∧
      findValidAssignments (resolveSubjects inpC3w.subjectsConfig
          ((lookupA inpC3w.enrollments "A").getD [])) "A"
          (buildConflictMap inpC3w.conflictPairs) stC7.sections inpC3w.scheduleConfig =
        l1 ++ best :: l2 ∧
      (∀ a ∈ l1, f best < f a) ∧
      (∀ a ∈ findValidAssignments (resolveSubjects inpC3w.subjectsConfig
          ((lookupA inpC3w.enrollments "A").getD [])) "A"
          (buildConflictMap inpC3w.conflictPairs) stC7.sections inpC3w.scheduleConfig,
        f best ≤ f a) :=
  ⟨by decide, by decide, by rfl,
    commits_min_cost_first inpC3w (buildConflictMap inpC3w.conflictPairs) stC7 "A" stC7r
      (by decide) (by decide) (by rfl)⟩

/-! ### Unknown course label (C9) -/

theorem mem_occupants_fold (sections : Sections) (c : String) :
    ∀ acc : List String,
      c ∈ sections.foldl (fun acc p => acc ++ (Prod.snd p).students) acc ↔
        c ∈ acc ∨ ∃ p ∈ sections, c ∈ (Prod.snd p).students := by
  induction sections with
  | nil =>
    intro acc
    simp
  | cons p rest ih =>
    intro acc
    rw [List.foldl_cons, ih]
    constructor
    · rintro (hm | ⟨q, hq, hm⟩)
      · rcases List.mem_append.mp hm with hm | hm
        · exact Or.inl hm
        · exact Or.inr ⟨p, List.mem_cons_self _ _, hm⟩
      · exact Or.inr ⟨q, List.mem_cons_of_mem _ hq, hm⟩
    · rintro (hm | ⟨q, hq, hm⟩)
      · exact Or.inl (List.mem_append.mpr (Or.inl hm))
      · rcases List.mem_cons.mp hq with rfl | hq
        · exact Or.inl (List.mem_append.mpr (Or.inr hm))
        · exact Or.inr ⟨q, hq, hm⟩

theorem buildStudentAssignments_lookup_none (studentCourses : List (String × String))
    (studentCodeToName : List (String × String)) (code : String)
    (hcourse : lookupA studentCourses code = none) :
    ∀ (s2s : List (String × List SectionId)) (acc : List (String × StudentAssignment)),
      lookupA acc code = none →
      lookupA (s2s.foldl (fun m p =>
        match lookupA studentCourses p.1 with
        | none => m
        | some course =>
          m ++ [(p.1, { code := p.1, name := (lookupA studentCodeToName p.1).getD "Desconocido",
                        course := course, sections := sortSections p.2 })]) acc) code = none := by
  intro s2s
  induction s2s with
  | nil =>
    intro acc hacc
    exact hacc
  | cons p rest ih =>
    intro acc hacc
    rw [List.foldl_cons]
    cases hc : lookupA studentCourses p.1 with
    | none =>
      exact ih acc hacc
    | some course =>
      refine ih _ ?_
      rw [lookupA_append, hacc]
      rw [lookupA_cons]
      by_cases hk : p.1 = code
      · rw [hk] at hc
        rw [hc] at hcourse
        exact Option.noConfusion hcourse
      · rw [if_neg hk, lookupA_nil]

/-- C9: a student occupying at least one section whose course label is not
in the course map is counted among the assigned students of the statistics,
yet receives no entry in the emitted per-student assignment map. -/
theorem unknown_course_counted_not_emitted (inp : RunInput) (r : ScheduleResult)
    (code : String) (hrun : scheduleStudents inp = .ok r)
    (hocc : ∃ sid sec, lookupA r.sections sid = some sec ∧ code ∈ sec.students)
    (hcourse : lookupA inp.studentCourses code = none) :
    code ∈ allOccupantCodes r.sections ∧
      r.stats.assignedStudents = (allOccupantCodes r.sections).length ∧
      lookupA r.studentAssignments code = none := by
  obtain ⟨sections1, st, -, -, -, hsec, -, hsa, hstats⟩ := scheduleStudents_ok_inv inp r hrun
  obtain ⟨sid, sec, hl, hm⟩ := hocc
  refine ⟨?_, ?_, ?_⟩
  · rw [allOccupantCodes, mem_dedup, mem_occupants_fold]
    exact Or.inr ⟨(sid, sec), mem_of_lookupA hl, hm⟩
  · rw [hsec]
    exact hstats
  · rw [hsa, buildStudentAssignments]
    exact buildStudentAssignments_lookup_none inp.studentCourses inp.studentCodeToName code
      hcourse _ [] rfl

/-- Run for the C9 witness: student `A` is assigned but missing from the
course map. -/
def inpC9 : RunInput :=
  { enrollments := [("A", ["X"])],
    studentCourses := [],
    studentCodeToName := [("A", "Ana")],
    studentPreferences := [],
    preassignedSections := [],
    conflictPairs := [],
    subjectsConfig := [⟨1, "X"⟩],
    scheduleConfig := [(1, ⟨1, 2, 30⟩)],
    balancingStrategy := .speed }

/-- The result of the `inpC9` run. -/
def rC9 : ScheduleResult := resultOf (scheduleStudents inpC9)

theorem unknown_course_counted_not_emitted_w :
    scheduleStudents inpC9 = .ok rC9 ∧
      lookupA rC9.sections ⟨1, Slot.one⟩ =
        some ((lookupA rC9.sections ⟨1, Slot.one⟩).getD ⟨0, 0, [], 0⟩) ∧
      "A" ∈ ((lookupA rC9.sections ⟨1, Slot.one⟩).getD ⟨0, 0, [], 0⟩).students ∧
      lookupA inpC9.studentCourses "A" = none ∧
      ("A" ∈ allOccupantCodes rC9.sections ∧
        rC9.stats.assignedStudents = (allOccupantCodes rC9.sections).length ∧
        lookupA rC9.studentAssignments "A" = none) :=
  ⟨by rfl, by rfl, by decide, by rfl,
    unknown_course_counted_not_emitted inpC9 rC9 "A" (by rfl)
      ⟨⟨1, Slot.one⟩, (lookupA rC9.sections ⟨1, Slot.one⟩).getD ⟨0, 0, [], 0⟩, by rfl, by decide⟩
      (by rfl)⟩

/-! ### Manual-override validation (C8, `ScheduleEditorModal.validate`) -/

/-- The block-uniqueness loop of the editor validation: walk the selected
section ids accumulating used blocks; `some true` = duplicate found,
`some false` = none; `none` models the non-null assertion failing on a
missing section. -/
def checkBlocks (sections : Sections) : List SectionId → List Nat → Option Bool
  | [], _usedBlocks => some false
  | sid :: rest, usedBlocks =>
    match lookupA sections sid with
    | none => none
    | some sec =>
      if usedBlocks.contains sec.block then some true
      else checkBlocks sections rest (usedBlocks ++ [sec.block])

/-- The per-section capacity (excluding the student's own occupancy) and
conflict loop of the editor validation. -/
def checkSections (sections : Sections) (studentConflicts : List String) (code : String) :
    List SectionId → Option (Bool × String)
  | [] => some (true, "La nueva asignacion es valida.")
  | sid :: rest =>
    match lookupA sections sid with
    | none => none
    | some sec =>
      if sec.capacity ≤ (sec.students.filter (fun s => decide (s ≠ code))).length then
        some (false, "La seccion esta llena.")
      else if sec.students.any (fun other => studentConflicts.contains other) then
        some (false, "Conflicto de convivencia en la seccion.")
      else checkSections sections studentConflicts code rest

/-- The `validate` function of the schedule editor: block uniqueness first,
then capacity (excluding the student) and conflicts per selected section. -/
def validateOverride (selected : List SectionId) (sections : Sections)
    (conflictPairs : List (String × String)) (code : String) : Option (Bool × String) :=
  match checkBlocks sections selected [] with
  | none => none
  | some true => some (false, "Conflicto de horario: dos asignaturas en el mismo bloque.")
  | some false =>
    let conflictMap := buildConflictMap conflictPairs
    checkSections sections (conflictsOf conflictMap code) code selected

theorem checkBlocks_false_spec (sections : Sections) :
    ∀ (l : List SectionId) (used : List Nat),
      checkBlocks sections l used = some false →
      List.Pairwise (fun t1 t2 => ∀ u1 u2, lookupA sections t1 = some u1 →
        lookupA sections t2 = some u2 → u1.block ≠ u2.block) l ∧
      ∀ sid ∈ l, ∀ sec, lookupA sections sid = some sec → sec.block ∉ used := by
  intro l
  induction l with
  | nil =>
    intro used _
    exact ⟨List.Pairwise.nil, by simp⟩
  | cons sid rest ih =>
    intro used h
    rw [checkBlocks] at h
    cases hsec : lookupA sections sid with
    | none =>
      rw [hsec] at h
      exact Option.noConfusion h
    | some sec =>
      rw [hsec] at h
      simp only [] at h
      by_cases hused : used.contains sec.block
      · rw [if_pos hused] at h
        injection h with h
        exact Bool.noConfusion h
      · rw [if_neg hused] at h
        obtain ⟨hpw, hfresh⟩ := ih (used ++ [sec.block]) h
        refine ⟨List.Pairwise.cons ?_ hpw, ?_⟩
        · intro t2 ht2 u1 u2 hu1 hu2
          rw [hsec] at hu1
          injection hu1 with hu1
          rw [← hu1]
          have := hfresh t2 ht2 u2 hu2
          intro hc
          exact this (List.mem_append.mpr (Or.inr (by simp [← hc])))
        · intro sid2 hsid2 sec2 hsec2
          rcases List.mem_cons.mp hsid2 with rfl | hsid2
          · rw [hsec] at hsec2
            injection hsec2 with hsec2
            rw [← hsec2]
            intro hc
            exact hused (by simpa using hc)
          · intro hc
            exact (hfresh sid2 hsid2 sec2 hsec2) (List.mem_append.mpr (Or.inl hc))

theorem checkBlocks_true_spec (sections : Sections) :
    ∀ (l : List SectionId) (used : List Nat),
      checkBlocks sections l used = some true →
      ¬ (List.Pairwise (fun t1 t2 => ∀ u1 u2, lookupA sections t1 = some u1 →
          lookupA sections t2 = some u2 → u1.block ≠ u2.block) l ∧
        ∀ sid ∈ l, ∀ sec, lookupA sections sid = some sec → sec.block ∉ used) := by
  intro l
  induction l with
  | nil =>
    intro used h
    rw [checkBlocks] at h
    injection h with h
    exact fun _ => Bool.noConfusion h
  | cons sid rest ih =>
    intro used h
    rw [checkBlocks] at h
    cases hsec : lookupA sections sid with
    | none =>
      rw [hsec] at h
      exact Option.noConfusion h
    | some sec =>
      rw [hsec] at h
      simp only [] at h
      by_cases hused : used.contains sec.block
      · rintro ⟨-, hfresh⟩
        exact (hfresh sid (List.mem_cons_self _ _) sec hsec) (by simpa using hused)
      · rw [if_neg hused] at h
        rintro ⟨hpw, hfresh⟩
        rw [List.pairwise_cons] at hpw
        refine ih (used ++ [sec.block]) h ⟨hpw.2, ?_⟩
        intro sid2 hsid2 sec2 hsec2 hc
        rcases List.mem_append.mp hc with hc | hc
        · exact (hfresh sid2 (List.mem_cons_of_mem _ hsid2) sec2 hsec2) hc
        · simp at hc
          exact (hpw.1 sid2 hsid2 sec sec2 hsec hsec2) hc.symm

theorem checkSections_true_spec (sections : Sections) (studentConflicts : List String)
    (code : String) :
    ∀ (l : List SectionId) (m : String),
      checkSections sections studentConflicts code l = some (true, m) →
      ∀ sid ∈ l, ∀ sec, lookupA sections sid = some sec →
        (sec.students.filter (fun s => decide (s ≠ code))).length < sec.capacity ∧
        ∀ other ∈ sec.students, other ∉ studentConflicts := by
  intro l
  induction l with
  | nil =>
    intro m _ sid hsid
    simp at hsid
  | cons sid0 rest ih =>
    intro m h sid hsid sec hsec
    rw [checkSections] at h
    cases hsec0 : lookupA sections sid0 with
    | none =>
      rw [hsec0] at h
      exact Option.noConfusion h
    | some sec0 =>
      rw [hsec0] at h
      simp only [] at h
      by_cases hcap : sec0.capacity ≤ (sec0.students.filter (fun s => decide (s ≠ code))).length
      · rw [if_pos hcap] at h
        injection h with h
        injection h with h1 h2
        exact Bool.noConfusion h1
      · rw [if_neg hcap] at h
        by_cases hconf : sec0.students.any (fun other => studentConflicts.contains other)
        · rw [if_pos hconf] at h
          injection h with h
          injection h with h1 h2
          exact Bool.noConfusion h1
        · rw [if_neg hconf] at h
          rcases List.mem_cons.mp hsid with rfl | hsid
          · rw [hsec0] at hsec
            injection hsec with hsec
            rw [← hsec]
            refine ⟨by omega, ?_⟩
            intro other hother hmem
            refine hconf ?_
            rw [List.any_eq_true]
            exact ⟨other, hother, by simpa using hmem⟩
          · exact ih m h sid hsid sec hsec

theorem checkSections_false_spec (sections : Sections) (studentConflicts : List String)
    (code : String) :
    ∀ (l : List SectionId) (m : String),
      checkSections sections studentConflicts code l = some (false, m) →
      (∃ sid ∈ l, ∃ sec, lookupA sections sid = some sec ∧
        (sec.capacity ≤ (sec.students.filter (fun s => decide (s ≠ code))).length ∨
          ∃ other ∈ sec.students, other ∈ studentConflicts)) ∧
      m ≠ "" := by
  intro l
  induction l with
  | nil =>
    intro m h
    rw [checkSections] at h
    injection h with h
    injection h with h1 h2
    exact Bool.noConfusion h1
  | cons sid0 rest ih =>
    intro m h
    rw [checkSections] at h
    cases hsec0 : lookupA sections sid0 with
    | none =>
      rw [hsec0] at h
      exact Option.noConfusion h
    | some sec0 =>
      rw [hsec0] at h
      simp only [] at h
      by_cases hcap : sec0.capacity ≤ (sec0.students.filter (fun s => decide (s ≠ code))).length
      · rw [if_pos hcap] at h
        injection h with h
        injection h with h1 h2
        refine ⟨⟨sid0, List.mem_cons_self _ _, sec0, hsec0, Or.inl hcap⟩, ?_⟩
        rw [← h2]
        decide
      · rw [if_neg hcap] at h
        by_cases hconf : sec0.students.any (fun other => studentConflicts.contains other)
        · rw [if_pos hconf] at h
          injection h with h
          injection h with h1 h2
          rw [List.any_eq_true] at hconf
          obtain ⟨other, hother, hcont⟩ := hconf
          refine ⟨⟨sid0, List.mem_cons_self _ _, sec0, hsec0,
            Or.inr ⟨other, hother, by simpa using hcont⟩⟩, ?_⟩
          rw [← h2]
          decide
        · rw [if_neg hconf] at h
          obtain ⟨⟨sid, hsid, sec, hsec, hbad⟩, hm⟩ := ih m h
          exact ⟨⟨sid, List.mem_cons_of_mem _ hsid, sec, hsec, hbad⟩, hm⟩

/-- C8: the editor validation reports a replacement assignment valid exactly
when (1) no two selected sections share a block, (2) every selected section
has room below capacity once the student's own occupancy is discounted, and
(3) no selected section houses a member of the student's conflict set; on an
invalid verdict the reported reason is nonempty. -/
theorem validateOverride_iff (selected : List SectionId) (sections : Sections)
    (conflictPairs : List (String × String)) (code : String) (valid : Bool) (msg : String)
    (h : validateOverride selected sections conflictPairs code = some (valid, msg)) :
    (valid = true ↔
      (List.Pairwise (fun t1 t2 => ∀ u1 u2, lookupA sections t1 = some u1 →
        lookupA sections t2 = some u2 → u1.block ≠ u2.block) selected ∧
      (∀ sid ∈ selected, ∀ sec, lookupA sections sid = some sec →
        (sec.students.filter (fun s => decide (s ≠ code))).length < sec.capacity) ∧
      (∀ sid ∈ selected, ∀ sec, lookupA sections sid = some sec →
        ∀ other ∈ sec.students,
          ¬ ((code, other) ∈ conflictPairs ∨ (other, code) ∈ conflictPairs)))) ∧
    (valid = false → msg ≠ "") := by
  rw [validateOverride] at h
  cases hb : checkBlocks sections selected [] with
  | none =>
    rw [hb] at h
    exact Option.noConfusion h
  | some dup =>
    rw [hb] at h
    cases dup with
    | true =>
      simp only [] at h
      injection h with h
      injection h with h1 h2
      constructor
      · rw [← h1]
        constructor
        · intro hfalse
          exact Bool.noConfusion hfalse
        · rintro ⟨hpw, -, -⟩
          exact absurd ⟨hpw, by simp⟩ (checkBlocks_true_spec sections selected [] hb)
      · intro _
        rw [← h2]
        decide
    | false =>
      simp only [] at h
      obtain ⟨hpw, -⟩ := checkBlocks_false_spec sections selected [] hb
      cases valid with
      | true =>
        have hall := checkSections_true_spec sections
          (conflictsOf (buildConflictMap conflictPairs) code) code selected msg h
        constructor
        · constructor
          · intro _
            refine ⟨hpw, ?_, ?_⟩
            · intro sid hsid sec hsec
              exact (hall sid hsid sec hsec).1
            · intro sid hsid sec hsec other hother hpairs
              refine (hall sid hsid sec hsec).2 other hother ?_
              exact (mem_buildConflictMap conflictPairs code other).mpr hpairs
          · intro _
            rfl
        · intro hfalse
          exact Bool.noConfusion hfalse
      | false =>
        obtain ⟨⟨sid, hsid, sec, hsec, hbad⟩, hm⟩ := checkSections_false_spec sections
          (conflictsOf (buildConflictMap conflictPairs) code) code selected msg h
        refine ⟨⟨fun hfalse => Bool.noConfusion hfalse, ?_⟩, fun _ => hm⟩
        rintro ⟨-, hcap, hconf⟩
        rcases hbad with hcapbad | ⟨other, hother, hcont⟩
        · have := hcap sid hsid sec hsec
          omega
        · exact absurd ((mem_buildConflictMap conflictPairs code other).mp hcont)
            (hconf sid hsid sec hsec other hother)

/-- Sections for the C8 witness: `1.1` on block 1 with one occupant, `2.1`
on block 2, empty. -/
def secsVW : Sections :=
  [(⟨1, Slot.one⟩, ⟨1, 1, ["B"], 2⟩), (⟨2, Slot.one⟩, ⟨2, 2, [], 1⟩)]

theorem validateOverride_iff_w :
    validateOverride [⟨1, Slot.one⟩, ⟨2, Slot.one⟩] secsVW [("A", "C")] "A" =
      some (true, "La nueva asignacion es valida.") ∧
    ((true = true ↔
      (List.Pairwise (fun t1 t2 => ∀ u1 u2, lookupA secsVW t1 = some u1 →
        lookupA secsVW t2 = some u2 → u1.block ≠ u2.block)
        [(⟨1, Slot.one⟩ : SectionId), ⟨2, Slot.one⟩] ∧
      (∀ sid ∈ [(⟨1, Slot.one⟩ : SectionId), ⟨2, Slot.one⟩], ∀ sec,
        lookupA secsVW sid = some sec →
        (sec.students.filter (fun s => decide (s ≠ "A"))).length < sec.capacity) ∧
      (∀ sid ∈ [(⟨1, Slot.one⟩ : SectionId), ⟨2, Slot.one⟩], ∀ sec,
        lookupA secsVW sid = some sec →
        ∀ other ∈ sec.students,
          ¬ (("A", other) ∈ [("A", "C")] ∨ (other, "A") ∈ [("A", "C")])))) ∧
    (true = false → "La nueva asignacion es valida." ≠ "")) :=
  ⟨by rfl,
    validateOverride_iff [⟨1, Slot.one⟩, ⟨2, Slot.one⟩] secsVW [("A", "C")] "A" true
      "La nueva asignacion es valida." (by rfl)⟩
